import Mathlib

/-!
Verification of the lwan configuration reader (`src/core/lwan/common/lwan-config.c`).

The reader is embedded shallowly: the backing `FILE` is a byte list together
with a cursor offset (`ftell`/`fseek` become reads and writes of that offset),
C strings are `List Char`, and fallible calls return `Option`.  Fixed C buffer
sizes (the raw-line scratch buffer and the 1024-byte multiline read buffer,
both declared in headers that are not part of the sources) are idealized as
unbounded, and I/O primitives (`ftell`, `fseek`, `fopen`, allocation) never
fail in the model.  Loops whose C termination argument is "the file cursor
strictly advances" are written with an explicit fuel argument that public
wrappers instantiate with `content.length + 1`, which is always sufficient;
this keeps every definition computable by the kernel.
-/

/-- C `isspace` on the default locale: space, tab, newline, vertical tab,
form feed, carriage return. -/
def isSpaceC (c : Char) : Bool :=
  c = ' ' || c = '\t' || c = '\n' || c = '\x0b' || c = '\x0c' || c = '\r'

/-- The open-brace character. -/
def lbrace : Char := '\x7b'

/-- The close-brace character. -/
def rbrace : Char := '\x7d'

/-- The single-quote character. -/
def squote : Char := Char.ofNat 39

/-- The multiline sentinel, three single quotes. -/
def mlSentinel : List Char := [squote, squote, squote]

/-- Value of `remove_leading_spaces`: drop leading whitespace. -/
def ltrim (l : List Char) : List Char := l.dropWhile isSpaceC

/-- Value of `remove_trailing_spaces`: drop trailing whitespace. -/
def rtrim (l : List Char) : List Char := (l.reverse.dropWhile isSpaceC).reverse

/-- Value of `remove_trailing_spaces(remove_leading_spaces(s))`: full trim. -/
def trimC (l : List Char) : List Char := rtrim (ltrim l)

/-- Model of `remove_comments`: the C code calls `strrchr(line, '#')` and writes a NUL
there, so everything from the LAST `#` onward is removed (not the first). -/
def remove_comments (l : List Char) : List Char :=
  if l.contains '#' then ((l.reverse.dropWhile (fun c => c ≠ '#')).reverse).dropLast
  else l

/-- Model of `replace_space_with_underscore` (only the space character, not tabs). -/
def replace_space_with_underscore (l : List Char) : List Char :=
  l.map (fun c => if c = ' ' then '_' else c)

/-- The normalized content of a physical line inside `config_read_line`:
comments removed, then leading and trailing whitespace removed. -/
def normLine (l : List Char) : List Char := trimC (remove_comments l)

/-- Reader state, mirroring `struct config`.  `content` stands for the bytes
of the backing file (shared by readers opened on the same path), `pos` for
the stdio cursor, `line` for the diagnostic line counter, `error_message`
for the first-error latch, `isolatedEnd` for `isolated.end` (-1 when the
reader is not isolation-bounded), and `strbuf` for the growable multiline
buffer.  The struct layout is taken from the field usage in the source (the
header is not among the sources) and the data model of the specification. -/
structure Config where
  content : List Char
  pos : Nat
  line : Nat
  error_message : Option String
  isolatedEnd : Int
  strbuf : List Char
deriving DecidableEq

/-- Structured line record, mirroring the discriminant and the fields of
`struct config_line` that the code reads back. -/
inductive CLine where
  | assign (key value : List Char)
  | sectionOpen (name param : List Char)
  | sectionClose
deriving DecidableEq

/-- Test for `CONFIG_LINE_TYPE_SECTION`. -/
def CLine.isSectionOpen : CLine → Bool
  | .sectionOpen _ _ => true
  | _ => false

/-- Model of `config_error`: record a message only if none is latched yet
(the `vasprintf` failure path cannot occur in the model). -/
def config_error (conf : Config) (msg : String) : Config :=
  if conf.error_message.isSome then conf
  else { conf with error_message := some msg }

/-- The chunk `fgets` returns: everything up to and including the first
newline (or to end of input). -/
def takeThroughNewline : List Char → List Char
  | [] => []
  | c :: cs => if c = '\n' then [c] else c :: takeThroughNewline cs

/-- Model of `fgets` on the byte stream: `none` exactly at end of input, otherwise
the next chunk together with the advanced cursor.  The C buffer-size cap is
idealized away (see the header comment). -/
def fgets (content : List Char) (pos : Nat) : Option (List Char × Nat) :=
  if pos < content.length then
    let ln := takeThroughNewline (content.drop pos)
    some (ln, pos + ln.length)
  else none

/-- Model of `config_fgets`: read one physical line; when the reader is isolation
bounded (`isolated.end > 0`) refuse delivery once the cursor has reached or
passed the bound — note the C code performs this check after the read, so on
refusal the cursor has still advanced, and the line counter is bumped only
on delivery.  The `ftell` failure path cannot occur in the model. -/
def config_fgets (conf : Config) : Option (List Char) × Config :=
  match fgets conf.content conf.pos with
  | none => (none, conf)
  | some (buf, newpos) =>
    let c' : Config := { conf with pos := newpos }
    if 0 < conf.isolatedEnd then
      if (newpos : Int) ≥ conf.isolatedEnd then (none, c')
      else (some buf, { c' with line := c'.line + 1 })
    else (some buf, { c' with line := c'.line + 1 })

/-- What one iteration of `parse_multiline` appends for a non-sentinel line.
In C, `remove_trailing_spaces(remove_leading_spaces(buffer))` advances past
the leading whitespace and truncates the buffer only from that point on, so
the appended buffer keeps its leading whitespace and loses its trailing
whitespace — and a line consisting entirely of whitespace (e.g. a blank
line) is appended unchanged, newline included. -/
def multilineKeep (buf : List Char) : List Char :=
  buf.takeWhile isSpaceC ++ rtrim (buf.dropWhile isSpaceC)

/-- The loop of `parse_multiline`: pull physical lines, appending
`multilineKeep` of each plus a newline, until a line trimming to the
sentinel arrives (then the accumulated buffer is the value) or end of input
(then the EOF error is latched).  Fueled; the wrapper supplies enough. -/
def parse_multilineLoop : Nat → Config → Option (List Char) × Config
  | 0, conf => (none, conf)
  | fuel+1, conf =>
    match config_fgets conf with
    | (none, c') =>
      (none, config_error c' "EOF while scanning for end of multiline string")
    | (some buf, c') =>
      if trimC buf = mlSentinel then (some c'.strbuf, c')
      else parse_multilineLoop fuel
        { c' with strbuf := c'.strbuf ++ multilineKeep buf ++ ['\n'] }

/-- Model of `parse_multiline`: reset the growable buffer, then run the capture loop
(buffer reset and append cannot fail in the model). -/
def parse_multiline (conf : Config) : Option (List Char) × Config :=
  parse_multilineLoop (conf.content.length + 1) { conf with strbuf := [] }

/-- The `do { ... } while (*line == '\0')` loop of `config_read_line`:
pull physical lines until one normalizes to nonempty content, returning that
normalized content.  Fueled; the wrapper supplies enough. -/
def readNonblankF : Nat → Config → Option (List Char) × Config
  | 0, conf => (none, conf)
  | fuel+1, conf =>
    match config_fgets conf with
    | (none, c') => (none, c')
    | (some buf, c') =>
      let line := normLine buf
      if line = [] then readNonblankF fuel c' else (some line, c')

/-- Public wrapper for the blank-skipping read loop. -/
def readNonblank (conf : Config) : Option (List Char) × Config :=
  readNonblankF (conf.content.length + 1) conf

/-- Model of `parse_section`, applied to the trimmed line whose last character is the
open brace: `strchr` looks for the first space (searching the whole line —
the brace is overwritten with NUL only afterwards); no space means a
malformed opening.  Name and parameter are the trimmed pieces before and
after that first space, the final brace excluded. -/
def parse_section (line : List Char) : Option (List Char × List Char) :=
  match line.findIdx? (fun c => c = ' ') with
  | none => none
  | some i =>
    some (trimC ((line.dropLast).take i), trimC ((line.dropLast).drop (i+1)))

/-- Outcome of classifying one normalized nonblank line, before any
multiline capture is performed. -/
inductive ClassResult where
  | secOpen (name param : List Char)
  | secClose
  | assignR (key value : List Char)
  | badSection
  | noEquals
deriving DecidableEq

/-- The pure classification logic of `config_read_line` on the normalized
nonblank line: trailing open brace → section opening (malformed when it has
no space); exactly a close brace → section end; otherwise split at the first
`=` (key trimmed with interior spaces replaced by underscores, value with
leading spaces removed), and no `=` is an error. -/
def classifyLine (line : List Char) : ClassResult :=
  if line.getLast? = some lbrace then
    match parse_section line with
    | none => .badSection
    | some (n, p) => .secOpen n p
  else if line = [rbrace] then .secClose
  else
    match line.findIdx? (fun c => c = '=') with
    | none => .noEquals
    | some i =>
      .assignR (replace_space_with_underscore (trimC (line.take i)))
        (ltrim (line.drop (i+1)))

/-- Model of `config_read_line`: fail immediately on a latched error; otherwise pull
the next nonblank normalized line and classify it, running the multiline
capture when the value is the sentinel.  A failing capture latches its own
message first, so the later `config_error` call is a no-op, exactly as in C. -/
def config_read_line (conf : Config) : Option CLine × Config :=
  if conf.error_message.isSome then (none, conf)
  else
    match readNonblank conf with
    | (none, c') => (none, c')
    | (some line, c') =>
      match classifyLine line with
      | .secOpen n p => (some (.sectionOpen n p), c')
      | .secClose => (some .sectionClose, c')
      | .badSection => (none, config_error c' "Malformed section opening")
      | .noEquals => (none, config_error c' "Expecting section or key=value")
      | .assignR k v =>
        if v = mlSentinel then
          match parse_multiline c' with
          | (some val, c'') => (some (.assign k val), c'')
          | (none, c'') => (none, config_error c'' "Malformed key=value line")
        else (some (.assign k v), c')

/-- Model of `find_section_end`: discard records until the close matching the current
nesting level, recursing one level per nested opening and failing once the
level exceeds 10.  Fueled (the C termination argument is cursor progress);
the wrapper supplies enough fuel. -/
def find_section_endF : Nat → Config → Nat → Bool × Config
  | 0, conf, _ => (false, conf)
  | fuel+1, conf, level =>
    if 10 < level then (false, config_error conf "Recursion level too deep")
    else
      match config_read_line conf with
      | (none, c') => (false, c')
      | (some l, c') =>
        match l with
        | .assign _ _ => find_section_endF fuel c' level
        | .sectionClose => (true, c')
        | .sectionOpen _ _ =>
          match find_section_endF fuel c' (level+1) with
          | (false, c'') => (false, c'')
          | (true, c'') => find_section_endF fuel c'' level

/-- Public wrapper for `find_section_end`. -/
def find_section_end (conf : Config) (level : Nat) : Bool × Config :=
  find_section_endF (conf.content.length + 1) conf level

/-- Model of `config_skip_section`: refuse on a latched error or when the current
record is not a section opening, otherwise scan to the matching close. -/
def config_skip_section (conf : Config) (l : CLine) : Bool × Config :=
  if conf.error_message.isSome then (false, conf)
  else if l.isSectionOpen = false then (false, conf)
  else find_section_end conf 0

/-- Model of `config_isolate_section`.  Record `startpos`, scan the original reader to
the matching close, reset its line counter to the pre-scan value, take
`endpos`, open a fresh reader on the same backing bytes, seek it to
`startpos` and bound it at `endpos`; finally rewind the original cursor to
`startpos`.  On a scan failure the cursor is rewound and, matching the C
cleanup path, the generic isolation error is latched only if no more
specific message already is; the partially opened sub-reader is closed
(returned here as `none`).  `ftell`/`fseek`/`fopen` cannot fail in the
model. -/
def config_isolate_section (conf : Config) (l : CLine) :
    Bool × Config × Option Config :=
  let origin_line := conf.line
  if conf.error_message.isSome then (false, conf, none)
  else if l.isSectionOpen = false then (false, conf, none)
  else
    let startpos := conf.pos
    match find_section_end conf 0 with
    | (false, c1) =>
      (false,
        config_error { c1 with pos := startpos }
          "Unknown error while isolating section", none)
    | (true, c1) =>
      let c2 : Config := { c1 with line := origin_line }
      let endpos := c2.pos
      let iso : Config :=
        { content := conf.content, pos := startpos, line := 0,
          error_message := none, isolatedEnd := (endpos : Int), strbuf := [] }
      let c3 : Config := { c2 with pos := startpos }
      if c3.error_message.isSome then
        (false, config_error c3 "Unknown error while isolating section", none)
      else (true, c3, some iso)

/-- Modulus of C `unsigned int` arithmetic. -/
def U32 : Nat := 4294967296

/-- Modelled from the spec: the duration-unit second counts of
`lwan-config.h` (the header is not among the sources; the spec lists only
the unit letters `s,m,h,d,w,M,y`).  Conventional values: minute, hour, day,
week, 31-day month, 12-month year. -/
def ONE_MINUTE : Nat := 60

/-- Modelled from the spec: seconds per hour (see `ONE_MINUTE`). -/
def ONE_HOUR : Nat := 3600

/-- Modelled from the spec: seconds per day (see `ONE_MINUTE`). -/
def ONE_DAY : Nat := 86400

/-- Modelled from the spec: seconds per week (see `ONE_MINUTE`). -/
def ONE_WEEK : Nat := 604800

/-- Modelled from the spec: seconds per month (see `ONE_MINUTE`). -/
def ONE_MONTH : Nat := 2678400

/-- Modelled from the spec: seconds per year (see `ONE_MINUTE`). -/
def ONE_YEAR : Nat := 32140800

/-- Decimal value of a digit run. -/
def digitsVal : List Char → Nat → Nat
  | [], acc => acc
  | c :: cs, acc => digitsVal cs (acc * 10 + (c.toNat - '0'.toNat))

/-- Model of `sscanf(str, "%u%c", &period, &multiplier)` returning 2: skip leading
whitespace, an optional sign, a nonempty digit run giving the unsigned value
(reduced modulo 2^32, negated for a minus sign), then one further character. -/
def sscanf_u_c (s : List Char) : Option (Nat × Char) :=
  let s1 := s.dropWhile isSpaceC
  let signed : Bool × List Char :=
    match s1 with
    | c :: r => if c = '-' then (true, r) else if c = '+' then (false, r) else (false, s1)
    | [] => (false, s1)
  let digits := signed.2.takeWhile Char.isDigit
  if digits = [] then none
  else
    let rest := signed.2.dropWhile Char.isDigit
    let v0 := digitsVal digits 0 % U32
    let v := if signed.1 then (U32 - v0) % U32 else v0
    match rest with
    | [] => none
    | c :: _ => some (v, c)

/-- Model of `rawmemchr(s, c) + 1`: the suffix just after the first occurrence of
`c` (the call sites guarantee `c` occurs in `s`). -/
def rawmemchrSucc : List Char → Char → List Char
  | [], _ => []
  | x :: r, c => if x = c then r else rawmemchrSucc r c

/-- One accumulation step of `parse_time_period`: add the scaled period for
a known unit (unsigned-int arithmetic), ignore unknown multipliers with a
warning. -/
def ptpStep (total period : Nat) (mult : Char) : Nat :=
  if mult = 's' then (total + period) % U32
  else if mult = 'm' then (total + (period * ONE_MINUTE) % U32) % U32
  else if mult = 'h' then (total + (period * ONE_HOUR) % U32) % U32
  else if mult = 'd' then (total + (period * ONE_DAY) % U32) % U32
  else if mult = 'w' then (total + (period * ONE_WEEK) % U32) % U32
  else if mult = 'M' then (total + (period * ONE_MONTH) % U32) % U32
  else if mult = 'y' then (total + (period * ONE_YEAR) % U32) % U32
  else total

/-- The `while (*str && sscanf(...) == 2)` loop of `parse_time_period`,
advancing past the first occurrence of the matched multiplier each round.
Fueled; each round strictly shortens the string. -/
def ptpLoop : Nat → List Char → Nat → Nat
  | 0, _, total => total
  | fuel+1, s, total =>
    if s = [] then total
    else
      match sscanf_u_c s with
      | none => total
      | some (period, mult) =>
        ptpLoop fuel (rawmemchrSucc s mult) (ptpStep total period mult)

/-- The accumulated total of `parse_time_period` for a string. -/
def ptpTotal (s : List Char) : Nat := ptpLoop (s.length + 1) s 0

/-- Model of `parse_time_period`: `NULL` gives the default; otherwise accumulate
`<integer><unit>` components and return the total, or the default when the
total is zero (`return total ? total : default_value`). -/
def parse_time_period (str : Option (List Char)) (default_value : Nat) : Nat :=
  match str with
  | none => default_value
  | some s =>
    let total := ptpTotal s
    if total = 0 then default_value else total

/-! ### Pure reference view of an input as a list of physical lines

The backing bytes of an input with physical lines `L` (none containing a
newline) are the lines each followed by a newline.  These definitions give
the grammar-level description of such an input — which records it contains,
where a section's matching close lies — against which the reader is proved. -/

/-- The backing bytes of the physical lines `L`. -/
def linesContent (L : List (List Char)) : List Char :=
  (L.map (fun l => l ++ ['\n'])).flatten

/-- Byte offset of the start of line `i` (the end of input when `i` is the
number of lines). -/
def posOf (L : List (List Char)) (i : Nat) : Nat :=
  ((L.take i).map (fun l => l.length + 1)).sum

/-- The lines contain no embedded newline characters. -/
def noNL (L : List (List Char)) : Prop := ∀ l ∈ L, '\n' ∉ l

/-- A reader freshly opened (`config_open`) on an input with lines `L`:
cursor at the start, line counter zero, no error, not isolation-bounded. -/
def openConfig (L : List (List Char)) : Config :=
  { content := linesContent L, pos := 0, line := 0,
    error_message := none, isolatedEnd := -1, strbuf := [] }

/-- Index (relative) and normalized content of the first line that does not
normalize to blank. -/
def firstNonblank : List (List Char) → Option (Nat × List Char)
  | [] => none
  | l :: ls =>
    if normLine l = [] then (firstNonblank ls).map (fun p => (p.1 + 1, p.2))
    else some (0, normLine l)

/-- Index of the first line whose trimmed content is the multiline
sentinel. -/
def sentinelIdx : List (List Char) → Option Nat
  | [] => none
  | l :: ls =>
    if trimC l = mlSentinel then some 0 else (sentinelIdx ls).map (· + 1)

/-- What the multiline capture keeps of one body line (stated the way the
capture behaves, see `multilineKeep`): a line that trims to blank is kept
whole, newline included; any other line keeps its leading whitespace and
loses its trailing whitespace. -/
def capturedLine (l : List Char) : List Char :=
  if trimC l = [] then l ++ ['\n']
  else l.takeWhile isSpaceC ++ rtrim (l.dropWhile isSpaceC)

/-- The multiline value assembled from the body lines: each captured line
followed by a newline, the final one included. -/
def mlValue (B : List (List Char)) : List Char :=
  (B.map (fun l => capturedLine l ++ ['\n'])).flatten

/-- One grammar step on a list of physical lines: `none` on a format error,
`some none` at clean end of input (only blank lines remain), and otherwise
the record produced together with the number of physical lines consumed. -/
def stepScan (M : List (List Char)) : Option (Option (CLine × Nat)) :=
  match firstNonblank M with
  | none => some none
  | some (j, x) =>
    match classifyLine x with
    | .secOpen n p => some (some (.sectionOpen n p, j+1))
    | .secClose => some (some (.sectionClose, j+1))
    | .badSection => none
    | .noEquals => none
    | .assignR k v =>
      if v = mlSentinel then
        match sentinelIdx (M.drop (j+1)) with
        | none => none
        | some j2 =>
          some (some (.assign k (mlValue ((M.drop (j+1)).take j2)), j+1+j2+1))
      else some (some (.assign k v, j+1))

/-- All records of an input, in source order; `none` when some line fails to
classify or a multiline capture is unterminated.  Fueled; each step consumes
at least one line. -/
def recordsScanF : Nat → List (List Char) → Option (List CLine)
  | 0, _ => none
  | fuel+1, M =>
    match stepScan M with
    | none => none
    | some none => some []
    | some (some (r, c)) => (recordsScanF fuel (M.drop c)).map (r :: ·)

/-- All records of an input, in source order (well-formedness predicate:
this is `some`). -/
def recordsScan (M : List (List Char)) : Option (List CLine) :=
  recordsScanF (M.length + 1) M

/-- Balance check on a record sequence: openings and closes nest properly
and the sequence ends at depth zero. -/
def depthOk : List CLine → Int → Bool
  | [], d => d = 0
  | r :: rs, d =>
    match r with
    | .sectionOpen _ _ => depthOk rs (d+1)
    | .sectionClose => decide (0 < d) && depthOk rs (d-1)
    | .assign _ _ => depthOk rs d

/-- The record sequence has balanced section nesting. -/
def balancedRecords (rs : List CLine) : Prop := depthOk rs 0 = true

/-- Number of physical lines from the start of `M` (a position just inside a
section) to and including the close matching nesting level `level`, observing
the depth cap; `none` when no such close is reached. -/
def skipScanF : Nat → List (List Char) → Nat → Option Nat
  | 0, _, _ => none
  | fuel+1, M, level =>
    if 10 < level then none
    else
      match stepScan M with
      | none => none
      | some none => none
      | some (some (r, c)) =>
        match r with
        | .assign _ _ => (skipScanF fuel (M.drop c) level).map (c + ·)
        | .sectionClose => some c
        | .sectionOpen _ _ =>
          match skipScanF fuel (M.drop c) (level+1) with
          | none => none
          | some c2 =>
            (skipScanF fuel ((M.drop c).drop c2) level).map (fun c3 => c + c2 + c3)

/-- Lines to and including the matching close (well-formed section body:
this is `some`). -/
def skipScan (M : List (List Char)) (level : Nat) : Option Nat :=
  skipScanF (M.length + 1) M level

/-- Iterate `config_read_line` to exhaustion, collecting the records. -/
def readAllF : Nat → Config → List CLine × Config
  | 0, conf => ([], conf)
  | fuel+1, conf =>
    match config_read_line conf with
    | (none, c') => ([], c')
    | (some r, c') =>
      let rest := readAllF fuel c'
      (r :: rest.1, rest.2)

/-- All records a reader delivers until it reports end of input or fails. -/
def readAll (conf : Config) : List CLine × Config :=
  readAllF (conf.content.length + 1) conf

/-- Iterate `config_fgets` to exhaustion, collecting the delivered physical
lines. -/
def fgetsAllF : Nat → Config → List (List Char) × Config
  | 0, conf => ([], conf)
  | fuel+1, conf =>
    match config_fgets conf with
    | (none, c') => ([], c')
    | (some b, c') =>
      let rest := fgetsAllF fuel c'
      (b :: rest.1, rest.2)

/-- All physical lines a reader delivers until it reports end of input. -/
def fgetsAll (conf : Config) : List (List Char) × Config :=
  fgetsAllF (conf.content.length + 1) conf

/-! ### Reader positioned at a line boundary

`AtLine conf L N m` says the reader sits at the start of line `m` of the
input with physical lines `L`, and that its delivery bound is line `N`:
either the reader is not isolation-bounded (`N` is the line count), or its
`isolated.end` is the boundary of some line `t`, in which case lines up to
`t - 2` are delivered (reading line `t - 1` lands the cursor on the bound). -/
structure AtLine (conf : Config) (L : List (List Char)) (N m : Nat) : Prop where
  hnl : noNL L
  hcontent : conf.content = linesContent L
  hpos : conf.pos = posOf L m
  hm : m ≤ L.length
  hbound : (conf.isolatedEnd ≤ 0 ∧ N = L.length) ∨
    (∃ t, 1 ≤ t ∧ t ≤ L.length ∧ conf.isolatedEnd = (posOf L t : Int) ∧ N = t - 1)

/-- The effective lines of a reader bounded at `N`, seen from line `m`. -/
def effLines (L : List (List Char)) (N m : Nat) : List (List Char) :=
  (L.take N).drop m

/-- A reader advanced to the boundary of line `m'` with `d` more lines on its
diagnostic counter. -/
def advC (conf : Config) (L : List (List Char)) (mline d : Nat) : Config :=
  { conf with pos := posOf L mline, line := conf.line + d }

/-- A reader advanced to the boundary of line `mline`, with `d` more counted
lines and a replaced multiline buffer. -/
def advSB (conf : Config) (L : List (List Char)) (mline d : Nat)
    (sb : List Char) : Config :=
  { conf with pos := posOf L mline, line := conf.line + d, strbuf := sb }

/-- A reader with no latched error and no isolation bound, positioned at the
boundary of line `i`; its line counter and multiline buffer are arbitrary.
This is the generic shape of a reader that just consumed line `i - 1`. -/
def boundaryConf (L : List (List Char)) (i ln : Nat) (sb : List Char) : Config :=
  { content := linesContent L, pos := posOf L i, line := ln,
    error_message := none, isolatedEnd := -1, strbuf := sb }

/-- The sub-reader `config_isolate_section` builds for the section whose
body starts at line `i` and whose matching close is line `i + c - 1`:
a fresh reader seeked to the body start and bounded at the close's end. -/
def isoConf (L : List (List Char)) (i c : Nat) : Config :=
  { content := linesContent L, pos := posOf L i, line := 0,
    error_message := none, isolatedEnd := (posOf L (i+c) : Int), strbuf := [] }

/-! ### Concrete inputs used by witnesses and counterexamples -/

def LC1 : List (List Char) :=
  [("a b \x7b").toList, ("k = v").toList, ("\x7d").toList]

def rsC1 : List CLine :=
  [CLine.sectionOpen ("a").toList ("b").toList,
   CLine.assign ("k").toList ("v").toList,
   CLine.sectionClose]

def LC2 : List (List Char) :=
  [("s p \x7b").toList, ("a = 1").toList, ("\x7d").toList, ("b = 2").toList]

def nestLines (n : Nat) : List (List Char) :=
  List.replicate n ("a b \x7b").toList ++ List.replicate n ("\x7d").toList

def nestOpen : CLine := CLine.sectionOpen ("a").toList ("b").toList

def LC6 : List (List Char) := [("k = v#w # c").toList]

def LC7 : List (List Char) :=
  [("k = ").toList ++ mlSentinel, ("a#b").toList, ([] : List Char), mlSentinel]

def LC8 : List (List Char) := [("db \x7b host = local").toList, ("\x7d").toList]

def LC8b : List (List Char) := [("db\x7b").toList]

def confErr : Config :=
  { content := ("a = 1\n").toList, pos := 0, line := 0,
    error_message := some "boom", isolatedEnd := -1, strbuf := [] }

instance noNL_decidable (L : List (List Char)) : Decidable (noNL L) :=
  inferInstanceAs (Decidable (∀ l ∈ L, '\n' ∉ l))

instance balancedRecords_decidable (rs : List CLine) :
    Decidable (balancedRecords rs) :=
  inferInstanceAs (Decidable (depthOk rs 0 = true))

/-! ### Basic facts about trimming, comments and line chunks -/

theorem dropWhile_append_of_all {p : Char → Bool} (xs ys : List Char)
    (h : ∀ x ∈ xs, p x = true) :
    (xs ++ ys).dropWhile p = ys.dropWhile p := by
  induction xs with
  | nil => rfl
  | cons a l ih =>
    simp only [List.cons_append, List.dropWhile_cons, h a (by simp)]
    exact ih (fun x hx => h x (by simp [hx]))

theorem rtrim_snoc_space (l : List Char) (c : Char) (h : isSpaceC c = true) :
    rtrim (l ++ [c]) = rtrim l := by
  simp [rtrim, List.reverse_append, List.dropWhile_cons, h]

theorem ltrim_append_cases (a b : List Char) :
    ltrim (a ++ b) = if ltrim a = [] then ltrim b else ltrim a ++ b := by
  induction a with
  | nil => simp [ltrim]
  | cons x l ih =>
    by_cases hx : isSpaceC x = true
    · simpa [ltrim, List.dropWhile_cons, hx] using ih
    · simp [ltrim, List.dropWhile_cons, hx]

theorem trimC_snoc_space (l : List Char) (c : Char) (h : isSpaceC c = true) :
    trimC (l ++ [c]) = trimC l := by
  unfold trimC
  rw [show ltrim (l ++ [c]) = ltrim (l ++ [c]) from rfl]
  have := ltrim_append_cases l [c]
  by_cases he : ltrim l = []
  · simp only [this, he, if_pos rfl]
    simp [ltrim, List.dropWhile_cons, h, rtrim]
  · simp only [this, if_neg he]
    exact rtrim_snoc_space _ _ h

theorem trimC_snoc_nl (l : List Char) : trimC (l ++ ['\n']) = trimC l :=
  trimC_snoc_space l '\n' (by decide)

theorem contains_eq_decide_mem (l : List Char) (c : Char) :
    l.contains c = decide (c ∈ l) := by
  simp [List.contains, List.elem_eq_mem]

theorem normLine_snoc_nl (l : List Char) :
    normLine (l ++ ['\n']) = normLine l := by
  unfold normLine remove_comments
  by_cases hc : '#' ∈ l
  · have hc1 : l.contains '#' = true := by
      rw [contains_eq_decide_mem]; exact decide_eq_true hc
    have hc2 : (l ++ ['\n']).contains '#' = true := by
      rw [contains_eq_decide_mem]; exact decide_eq_true (by simp [hc])
    rw [if_pos hc2, if_pos hc1]
    have : (l ++ ['\n']).reverse.dropWhile (fun c => c ≠ '#') =
        l.reverse.dropWhile (fun c => c ≠ '#') := by
      simp [List.reverse_append, List.dropWhile_cons]
    rw [this]
  · have hc1 : l.contains '#' = false := by
      rw [contains_eq_decide_mem]; exact decide_eq_false hc
    have hc2 : (l ++ ['\n']).contains '#' = false := by
      rw [contains_eq_decide_mem]
      refine decide_eq_false ?_
      simp only [List.mem_append, List.mem_singleton]
      rintro (h | h)
      · exact hc h
      · exact absurd h (by decide)
    rw [if_neg (by simp [hc2, hc]), if_neg (by simp [hc1, hc])]
    exact trimC_snoc_nl l

/-! ### Byte offsets of line boundaries -/

theorem posOf_nil (i : Nat) : posOf [] i = 0 := by simp [posOf]

theorem posOf_zero (L : List (List Char)) : posOf L 0 = 0 := by simp [posOf]

theorem posOf_cons_succ (l : List Char) (L : List (List Char)) (i : Nat) :
    posOf (l :: L) (i+1) = (l.length + 1) + posOf L i := by
  simp [posOf, List.take_succ_cons]

theorem linesContent_nil : linesContent [] = [] := rfl

theorem linesContent_cons (l : List Char) (L : List (List Char)) :
    linesContent (l :: L) = (l ++ ['\n']) ++ linesContent L := by
  simp [linesContent]

theorem linesContent_length (L : List (List Char)) :
    (linesContent L).length = posOf L L.length := by
  induction L with
  | nil => rfl
  | cons l L ih =>
    rw [linesContent_cons, List.length_append, ih,
      show (l :: L).length = L.length + 1 from rfl, posOf_cons_succ]
    simp [Nat.add_comm]

theorem posOf_of_len_le (L : List (List Char)) (i : Nat) (h : L.length ≤ i) :
    posOf L i = posOf L L.length := by
  unfold posOf
  rw [List.take_of_length_le h, List.take_of_length_le (le_refl _)]

theorem posOf_mono (L : List (List Char)) {i j : Nat} (h : i ≤ j) :
    posOf L i ≤ posOf L j := by
  induction L generalizing i j with
  | nil => simp [posOf_nil]
  | cons l L ih =>
    cases i with
    | zero => simp [posOf_zero]
    | succ i =>
      cases j with
      | zero => omega
      | succ j =>
        rw [posOf_cons_succ, posOf_cons_succ]
        have := ih (Nat.le_of_succ_le_succ h)
        omega

theorem posOf_strict (L : List (List Char)) {i j : Nat} (h1 : i < j)
    (h2 : j ≤ L.length) : posOf L i < posOf L j := by
  induction L generalizing i j with
  | nil => simp at h2; omega
  | cons l L ih =>
    cases j with
    | zero => omega
    | succ j =>
      cases i with
      | zero =>
        rw [posOf_zero, posOf_cons_succ]
        omega
      | succ i =>
        rw [posOf_cons_succ, posOf_cons_succ]
        have : posOf L i < posOf L j := by
          apply ih
          · omega
          · simpa using h2
        omega

theorem index_le_posOf (L : List (List Char)) (i : Nat) (h : i ≤ L.length) :
    i ≤ posOf L i := by
  induction L generalizing i with
  | nil => simp at h; omega
  | cons l L ih =>
    cases i with
    | zero => simp [posOf_zero]
    | succ i =>
      rw [posOf_cons_succ]
      have : i ≤ posOf L i := ih i (by simpa using h)
      omega

theorem posOf_le_clen (L : List (List Char)) (i : Nat) :
    posOf L i ≤ (linesContent L).length := by
  rw [linesContent_length]
  by_cases h : i ≤ L.length
  · exact posOf_mono L h
  · rw [posOf_of_len_le L i (by omega)]

theorem drop_posOf (L : List (List Char)) (i : Nat) :
    (linesContent L).drop (posOf L i) = linesContent (L.drop i) := by
  induction L generalizing i with
  | nil => simp [linesContent_nil, posOf_nil]
  | cons l L ih =>
    cases i with
    | zero => simp [posOf_zero]
    | succ i =>
      rw [posOf_cons_succ, linesContent_cons]
      rw [show l.length + 1 + posOf L i = (l ++ ['\n']).length + posOf L i by
        simp]
      rw [List.drop_append]
      exact ih i

theorem ttn_append_nl (l r : List Char) (h : '\n' ∉ l) :
    takeThroughNewline (l ++ '\n' :: r) = l ++ ['\n'] := by
  induction l with
  | nil => simp [takeThroughNewline]
  | cons c cs ih =>
    have hc : c ≠ '\n' := fun hh => h (by simp [hh])
    simp only [List.cons_append, takeThroughNewline, if_neg hc]
    rw [show cs.append ('\n' :: r) = cs ++ '\n' :: r from rfl,
      ih (fun hh => h (by simp [hh]))]

theorem drop_eq_getD_cons (L : List (List Char)) (i : Nat) (h : i < L.length) :
    L.drop i = L.getD i [] :: L.drop (i+1) := by
  have := List.drop_eq_getElem_cons (l := L) (n := i) h
  rw [this]
  congr 1
  simp [List.getD_eq_getElem?_getD, List.getElem?_eq_getElem h]

theorem getD_mem (L : List (List Char)) (i : Nat) (h : i < L.length) :
    L.getD i [] ∈ L := by
  rw [List.getD_eq_getElem?_getD, List.getElem?_eq_getElem h]
  exact List.getElem_mem h

theorem posOf_succ_getD (L : List (List Char)) (i : Nat) (h : i < L.length) :
    posOf L (i+1) = posOf L i + ((L.getD i []).length + 1) := by
  have ht : L.take (i+1) = L.take i ++ [L.getD i []] := by
    rw [List.take_succ, List.getElem?_eq_getElem h]
    simp [List.getD_eq_getElem?_getD, List.getElem?_eq_getElem h]
  unfold posOf
  rw [ht]
  simp

theorem fgets_at (L : List (List Char)) (i : Nat) (hn : noNL L)
    (h : i < L.length) :
    fgets (linesContent L) (posOf L i) =
      some (L.getD i [] ++ ['\n'], posOf L (i+1)) := by
  have hlt : posOf L i < (linesContent L).length := by
    rw [linesContent_length]
    exact posOf_strict L h (le_refl _)
  unfold fgets
  rw [if_pos hlt]
  rw [drop_posOf, drop_eq_getD_cons L i h, linesContent_cons]
  have hnl : '\n' ∉ L.getD i [] := hn _ (getD_mem L i h)
  rw [show (L.getD i [] ++ ['\n']) ++ linesContent (L.drop (i+1)) =
      L.getD i [] ++ '\n' :: linesContent (L.drop (i+1)) by simp]
  rw [ttn_append_nl _ _ hnl]
  rw [posOf_succ_getD L i h]
  simp

theorem fgets_none (L : List (List Char)) (i : Nat) (h : L.length ≤ i) :
    fgets (linesContent L) (posOf L i) = none := by
  unfold fgets
  rw [if_neg]
  rw [posOf_of_len_le L i h, linesContent_length]
  omega

theorem AtLine.N_le {conf : Config} {L : List (List Char)} {N m : Nat}
    (h : AtLine conf L N m) : N ≤ L.length := by
  rcases h.hbound with ⟨_, rfl⟩ | ⟨t, _, ht, _, rfl⟩
  · exact le_refl _
  · omega

theorem AtLine.of_fields {conf : Config} {L : List (List Char)} {N m : Nat}
    (h : AtLine conf L N m) (c2 : Config) (m' : Nat)
    (hc : c2.content = conf.content) (hi : c2.isolatedEnd = conf.isolatedEnd)
    (hp : c2.pos = posOf L m') (hm' : m' ≤ L.length) : AtLine c2 L N m' := by
  refine ⟨h.hnl, ?_, hp, hm', ?_⟩
  · rw [hc]; exact h.hcontent
  · rw [hi]; exact h.hbound

theorem effLines_nil {L : List (List Char)} {N m : Nat} (h : N ≤ m) :
    effLines L N m = [] := by
  apply List.drop_eq_nil_of_le
  calc (L.take N).length ≤ N := by simp
  _ ≤ m := h

theorem effLines_cons {L : List (List Char)} {N m : Nat} (hm : m < N)
    (hN : N ≤ L.length) :
    effLines L N m = L.getD m [] :: effLines L N (m+1) := by
  unfold effLines
  have hlen : (L.take N).length = N := by simp [Nat.min_eq_left hN]
  rw [drop_eq_getD_cons (L.take N) m (by omega)]
  congr 1
  rw [List.getD_eq_getElem?_getD, List.getD_eq_getElem?_getD]
  rw [List.getElem?_take_of_lt hm]

theorem effLines_drop (L : List (List Char)) (N m k : Nat) :
    (effLines L N m).drop k = effLines L N (m+k) := by
  simp [effLines, List.drop_drop]

/-- Delivery step: a reader at a boundary strictly below its bound delivers
the line there, advancing cursor and line counter. -/
theorem config_fgets_deliver {conf : Config} {L : List (List Char)} {N m : Nat}
    (h : AtLine conf L N m) (hm : m < N) :
    config_fgets conf = (some (L.getD m [] ++ ['\n']),
      { conf with pos := posOf L (m+1), line := conf.line + 1 }) := by
  have hmL : m < L.length := lt_of_lt_of_le hm h.N_le
  have hf : fgets conf.content conf.pos =
      some (L.getD m [] ++ ['\n'], posOf L (m+1)) := by
    rw [h.hcontent, h.hpos]
    exact fgets_at L m h.hnl hmL
  simp only [config_fgets, hf]
  rcases h.hbound with ⟨hle, _⟩ | ⟨t, ht1, htL, hEnd, hNt⟩
  · rw [if_neg (by omega)]
  · have hpos : (0 : Int) < conf.isolatedEnd := by
      rw [hEnd]
      have : 1 ≤ posOf L t := le_trans ht1 (index_le_posOf L t htL)
      exact_mod_cast this
    rw [if_pos hpos]
    have hlt : posOf L (m+1) < posOf L t := by
      have hmt : m + 1 < t := by omega
      exact posOf_strict L hmt htL
    rw [if_neg (by rw [hEnd]; exact_mod_cast not_le.mpr hlt)]

/-- Refusal step: a reader at or past its bound returns `none`; the cursor
may still advance one line (the C check happens after the read), the line
counter does not move, and the reader stays at or past its bound. -/
theorem config_fgets_refuse {conf : Config} {L : List (List Char)} {N m : Nat}
    (h : AtLine conf L N m) (hm : N ≤ m) :
    ∃ m', N ≤ m' ∧ m' ≤ L.length ∧ m ≤ m' ∧
      config_fgets conf = (none, { conf with pos := posOf L m' }) := by
  by_cases hmL : m < L.length
  · rcases h.hbound with ⟨_, hNL⟩ | ⟨t, ht1, htL, hEnd, hNt⟩
    · omega
    · refine ⟨m+1, by omega, by omega, by omega, ?_⟩
      have hf : fgets conf.content conf.pos =
          some (L.getD m [] ++ ['\n'], posOf L (m+1)) := by
        rw [h.hcontent, h.hpos]
        exact fgets_at L m h.hnl hmL
      simp only [config_fgets, hf]
      have hpos : (0 : Int) < conf.isolatedEnd := by
        rw [hEnd]
        have : 1 ≤ posOf L t := le_trans ht1 (index_le_posOf L t htL)
        exact_mod_cast this
      rw [if_pos hpos]
      have hge : posOf L t ≤ posOf L (m+1) := posOf_mono L (by omega)
      rw [if_pos (by rw [hEnd]; exact_mod_cast hge)]
  · refine ⟨m, hm, h.hm, le_refl m, ?_⟩
    have hf : fgets conf.content conf.pos = none := by
      rw [h.hcontent, h.hpos]
      exact fgets_none L m (by omega)
    simp only [config_fgets, hf]
    rw [← h.hpos]

theorem advC_advC (conf : Config) (L : List (List Char)) (a d1 b d2 : Nat) :
    advC (advC conf L a d1) L b d2 = advC conf L b (d1 + d2) := by
  simp [advC, Nat.add_assoc]

theorem advC_zero_pos (conf : Config) (L : List (List Char)) (m : Nat) :
    advC conf L m 0 = { conf with pos := posOf L m } := by
  simp [advC]

theorem AtLine.advC_at {conf : Config} {L : List (List Char)} {N m : Nat}
    (h : AtLine conf L N m) (m' d : Nat) (hm' : m' ≤ L.length) :
    AtLine (advC conf L m' d) L N m' :=
  h.of_fields _ m' rfl rfl rfl hm'

theorem config_fgets_deliver_adv {conf : Config} {L : List (List Char)}
    {N m : Nat} (h : AtLine conf L N m) (hm : m < N) :
    config_fgets conf = (some (L.getD m [] ++ ['\n']), advC conf L (m+1) 1) :=
  config_fgets_deliver h hm

theorem config_fgets_refuse_adv {conf : Config} {L : List (List Char)}
    {N m : Nat} (h : AtLine conf L N m) (hm : N ≤ m) :
    ∃ m', N ≤ m' ∧ m' ≤ L.length ∧ m ≤ m' ∧
      config_fgets conf = (none, advC conf L m' 0) := by
  obtain ⟨m', h1, h2, h3, h4⟩ := config_fgets_refuse h hm
  exact ⟨m', h1, h2, h3, by rw [advC_zero_pos]; exact h4⟩

/-- The blank-skipping loop, successful case: with a nonblank line ahead
(before the delivery bound), the loop returns its normalized content, the
cursor lands just past it, and the line counter counts the consumed lines. -/
theorem readNonblankF_some (fuel : Nat) :
    ∀ {conf : Config} {L : List (List Char)} {N m j : Nat} {x : List Char},
    AtLine conf L N m → m ≤ N → N - m < fuel →
    firstNonblank (effLines L N m) = some (j, x) →
    readNonblankF fuel conf = (some x, advC conf L (m+j+1) (j+1)) ∧
      m+j+1 ≤ N := by
  induction fuel with
  | zero => intro conf L N m j x h hm hfuel hfb; omega
  | succ fuel ih =>
    intro conf L N m j x h hm hfuel hfb
    by_cases hmN : m < N
    · have hNle := h.N_le
      rw [effLines_cons hmN hNle] at hfb
      simp only [firstNonblank] at hfb
      have hdel := config_fgets_deliver_adv h hmN
      by_cases hb : normLine (L.getD m []) = []
      · rw [if_pos hb, Option.map_eq_some'] at hfb
        obtain ⟨⟨j0, x0⟩, hfb0, hjx⟩ := hfb
        have hj : j = j0 + 1 := by
          have := congrArg Prod.fst hjx
          simpa using this.symm
        have hx : x = x0 := by
          have := congrArg Prod.snd hjx
          simpa using this.symm
        subst hj
        subst hx
        have hc' : AtLine (advC conf L (m+1) 1) L N (m+1) :=
          h.advC_at (m+1) 1 (by omega)
        have hrec := ih hc' (by omega) (by omega) hfb0
        constructor
        · simp only [readNonblankF, hdel, normLine_snoc_nl, if_pos hb]
          rw [hrec.1, advC_advC]
          rw [show m + 1 + j0 + 1 = m + (j0 + 1) + 1 by omega,
            show 1 + (j0 + 1) = j0 + 1 + 1 by omega]
        · omega
      · rw [if_neg hb] at hfb
        have hj : j = 0 ∧ x = normLine (L.getD m []) := by
          constructor
          · have := congrArg Prod.fst (Option.some.inj hfb)
            simpa using this.symm
          · have := congrArg Prod.snd (Option.some.inj hfb)
            simpa using this.symm
        obtain ⟨hj0, hx0⟩ := hj
        subst hj0
        subst hx0
        constructor
        · simp only [readNonblankF, hdel, normLine_snoc_nl, if_neg hb]
        · omega
    · exfalso
      have hmeq : m = N := by omega
      rw [hmeq, effLines_nil (le_refl N)] at hfb
      simp [firstNonblank] at hfb

/-- The blank-skipping loop, end-of-input case: with only blank lines before
the bound, the loop consumes them all and reports end of input; the line
counter counts exactly the blank lines delivered. -/
theorem readNonblankF_none (fuel : Nat) :
    ∀ {conf : Config} {L : List (List Char)} {N m : Nat},
    AtLine conf L N m → m ≤ N → N - m < fuel →
    firstNonblank (effLines L N m) = none →
    ∃ m', N ≤ m' ∧ m' ≤ L.length ∧
      readNonblankF fuel conf = (none, advC conf L m' (N - m)) := by
  induction fuel with
  | zero => intro conf L N m h hm hfuel hfb; omega
  | succ fuel ih =>
    intro conf L N m h hm hfuel hfb
    by_cases hmN : m < N
    · have hNle := h.N_le
      rw [effLines_cons hmN hNle] at hfb
      simp only [firstNonblank] at hfb
      have hdel := config_fgets_deliver_adv h hmN
      by_cases hb : normLine (L.getD m []) = []
      · rw [if_pos hb, Option.map_eq_none'] at hfb
        have hc' : AtLine (advC conf L (m+1) 1) L N (m+1) :=
          h.advC_at (m+1) 1 (by omega)
        obtain ⟨m', hm'1, hm'2, hrec⟩ := ih hc' (by omega) (by omega) hfb
        refine ⟨m', hm'1, hm'2, ?_⟩
        simp only [readNonblankF, hdel, normLine_snoc_nl, if_pos hb]
        rw [hrec, advC_advC, show 1 + (N - (m+1)) = N - m by omega]
      · rw [if_neg hb] at hfb
        exact absurd hfb (by simp)
    · have hmeq : m = N := by omega
      subst hmeq
      obtain ⟨m', hm'1, hm'2, _, href⟩ := config_fgets_refuse_adv h (le_refl m)
      refine ⟨m', hm'1, hm'2, ?_⟩
      simp only [readNonblankF, href]
      rw [show m - m = 0 from by omega]

/-! ### What the multiline capture appends, per line -/

theorem takeWhile_eq_self_of_all {p : Char → Bool} {l : List Char}
    (h : ∀ c ∈ l, p c = true) : l.takeWhile p = l := by
  induction l with
  | nil => rfl
  | cons a l ih =>
    rw [List.takeWhile_cons, if_pos (h a (by simp))]
    rw [ih (fun c hc => h c (by simp [hc]))]

theorem dropWhile_eq_nil_of_all {p : Char → Bool} {l : List Char}
    (h : ∀ c ∈ l, p c = true) : l.dropWhile p = [] := by
  induction l with
  | nil => rfl
  | cons a l ih =>
    rw [List.dropWhile_cons, if_pos (h a (by simp))]
    exact ih (fun c hc => h c (by simp [hc]))

theorem takeWhile_append_left {p : Char → Bool} {l : List Char}
    (r : List Char) (h : ∃ c ∈ l, p c = false) :
    (l ++ r).takeWhile p = l.takeWhile p := by
  induction l with
  | nil => obtain ⟨c, hc, _⟩ := h; simp at hc
  | cons a l ih =>
    by_cases ha : p a = true
    · obtain ⟨c, hc, hpc⟩ := h
      have hcl : c ∈ l := by
        rcases List.mem_cons.mp hc with rfl | hcl
        · rw [ha] at hpc; exact absurd hpc (by simp)
        · exact hcl
      rw [List.cons_append, List.takeWhile_cons, if_pos ha,
        List.takeWhile_cons, if_pos ha, ih ⟨c, hcl, hpc⟩]
    · rw [List.cons_append, List.takeWhile_cons,
        if_neg ha, List.takeWhile_cons, if_neg ha]

theorem dropWhile_append_left {p : Char → Bool} {l : List Char}
    (r : List Char) (h : ∃ c ∈ l, p c = false) :
    (l ++ r).dropWhile p = l.dropWhile p ++ r := by
  induction l with
  | nil => obtain ⟨c, hc, _⟩ := h; simp at hc
  | cons a l ih =>
    by_cases ha : p a = true
    · obtain ⟨c, hc, hpc⟩ := h
      have hcl : c ∈ l := by
        rcases List.mem_cons.mp hc with rfl | hcl
        · rw [ha] at hpc; exact absurd hpc (by simp)
        · exact hcl
      rw [List.cons_append, List.dropWhile_cons, if_pos ha,
        List.dropWhile_cons, if_pos ha, ih ⟨c, hcl, hpc⟩]
    · rw [List.cons_append, List.dropWhile_cons,
        if_neg ha, List.dropWhile_cons, if_neg ha]
      rfl

theorem rtrim_nil_all {l : List Char} (h : rtrim l = []) :
    ∀ c ∈ l, isSpaceC c = true := by
  intro c hc
  unfold rtrim at h
  have h2 : l.reverse.dropWhile isSpaceC = [] := by
    have := congrArg List.reverse h
    simpa using this
  have := List.dropWhile_eq_nil_iff.mp h2
  exact this c (List.mem_reverse.mpr hc)

theorem trimC_nil_all {l : List Char} (h : trimC l = []) :
    ∀ c ∈ l, isSpaceC c = true := by
  intro c hc
  have hsplit : l.takeWhile isSpaceC ++ l.dropWhile isSpaceC = l :=
    List.takeWhile_append_dropWhile isSpaceC l
  rcases List.mem_append.mp (by rw [hsplit]; exact hc) with h1 | h2
  · exact List.mem_takeWhile_imp h1
  · exact rtrim_nil_all h c h2

theorem trimC_nil_of_all {l : List Char} (h : ∀ c ∈ l, isSpaceC c = true) :
    trimC l = [] := by
  unfold trimC ltrim
  rw [dropWhile_eq_nil_of_all h]
  rfl

/-- For a newline-free physical line, what `parse_multiline` appends for its
buffer (the line plus its terminator) is exactly `capturedLine`. -/
theorem multilineKeep_eq_capturedLine (l : List Char) (h : '\n' ∉ l) :
    multilineKeep (l ++ ['\n']) = capturedLine l := by
  unfold multilineKeep capturedLine
  by_cases hb : trimC l = []
  · rw [if_pos hb]
    have hall : ∀ c ∈ l ++ ['\n'], isSpaceC c = true := by
      intro c hc
      rcases List.mem_append.mp hc with h1 | h2
      · exact trimC_nil_all hb c h1
      · rw [List.mem_singleton.mp h2]; rfl
    rw [takeWhile_eq_self_of_all hall, dropWhile_eq_nil_of_all hall]
    simp [rtrim]
  · rw [if_neg hb]
    have hex : ∃ c ∈ l, isSpaceC c = false := by
      by_contra hno
      push_neg at hno
      exact hb (trimC_nil_of_all (fun c hc => by
        have := hno c hc
        revert this
        cases isSpaceC c <;> simp))
    rw [takeWhile_append_left _ hex, dropWhile_append_left _ hex,
      rtrim_snoc_space _ _ (by rfl)]

theorem mlValue_nil : mlValue [] = [] := rfl

theorem mlValue_cons (l : List Char) (B : List (List Char)) :
    mlValue (l :: B) = (capturedLine l ++ ['\n']) ++ mlValue B := by
  simp [mlValue]

theorem advSB_advSB (conf : Config) (L : List (List Char))
    (a d1 b d2 : Nat) (s1 s2 : List Char) :
    advSB (advSB conf L a d1 s1) L b d2 s2 = advSB conf L b (d1 + d2) s2 := by
  simp [advSB, Nat.add_assoc]

theorem AtLine.advSB_at {conf : Config} {L : List (List Char)} {N m : Nat}
    (h : AtLine conf L N m) (m' d : Nat) (sb : List Char)
    (hm' : m' ≤ L.length) : AtLine (advSB conf L m' d sb) L N m' :=
  h.of_fields _ m' rfl rfl rfl hm'

/-- The multiline capture loop: with a sentinel line ahead at relative index
`j` (before the delivery bound), the loop accumulates exactly the captured
body lines, each with a newline appended, and stops just past the sentinel
line. -/
theorem parse_multilineLoop_capture (fuel : Nat) :
    ∀ {conf : Config} {L : List (List Char)} {N m j : Nat},
    AtLine conf L N m → m ≤ N → N - m < fuel →
    sentinelIdx (effLines L N m) = some j →
    parse_multilineLoop fuel conf =
      (some (conf.strbuf ++ mlValue ((effLines L N m).take j)),
        advSB conf L (m+j+1) (j+1)
          (conf.strbuf ++ mlValue ((effLines L N m).take j))) ∧
      m + j + 1 ≤ N := by
  induction fuel with
  | zero => intro conf L N m j h hm hfuel hsent; omega
  | succ fuel ih =>
    intro conf L N m j h hm hfuel hsent
    by_cases hmN : m < N
    · have hNle := h.N_le
      rw [effLines_cons hmN hNle] at hsent ⊢
      simp only [sentinelIdx] at hsent
      have hdel := config_fgets_deliver_adv h hmN
      have hnl : '\n' ∉ L.getD m [] := h.hnl _ (getD_mem L m (by omega))
      by_cases hs : trimC (L.getD m []) = mlSentinel
      · rw [if_pos hs] at hsent
        have hj : j = 0 := by
          have := Option.some.inj hsent
          omega
        subst hj
        constructor
        · simp only [parse_multilineLoop, hdel]
          rw [show trimC (L.getD m [] ++ ['\n']) = trimC (L.getD m []) from
            trimC_snoc_nl _, if_pos hs]
          simp [advSB, advC, mlValue]
        · omega
      · rw [if_neg hs, Option.map_eq_some'] at hsent
        obtain ⟨j0, hsent0, hj⟩ := hsent
        subst hj
        have hc2 : AtLine (advSB conf L (m+1) 1
            (conf.strbuf ++ multilineKeep (L.getD m [] ++ ['\n']) ++ ['\n']))
            L N (m+1) := h.advSB_at (m+1) 1 _ (by omega)
        have hrec := ih hc2 (by omega) (by omega)
          (by rw [show effLines L N (m+1) = effLines L N (m+1) from rfl]; exact hsent0)
        constructor
        · simp only [parse_multilineLoop, hdel]
          rw [show trimC (L.getD m [] ++ ['\n']) = trimC (L.getD m []) from
            trimC_snoc_nl _, if_neg hs]
          have hstep : ({ advC conf L (m+1) 1 with
              strbuf := (advC conf L (m+1) 1).strbuf ++
                multilineKeep (L.getD m [] ++ ['\n']) ++ ['\n'] } : Config) =
              advSB conf L (m+1) 1
                (conf.strbuf ++ multilineKeep (L.getD m [] ++ ['\n']) ++ ['\n']) := by
            simp [advC, advSB]
          rw [hstep, hrec.1, advSB_advSB]
          rw [multilineKeep_eq_capturedLine _ hnl]
          have hsb : (advSB conf L (m+1) 1
              (conf.strbuf ++ capturedLine (L.getD m []) ++ ['\n'])).strbuf =
              conf.strbuf ++ capturedLine (L.getD m []) ++ ['\n'] := rfl
          rw [hsb]
          rw [List.take_succ_cons, mlValue_cons]
          rw [show m + 1 + j0 + 1 = m + (j0 + 1) + 1 by omega,
            show 1 + (j0 + 1) = j0 + 1 + 1 by omega]
          simp [List.append_assoc]
        · omega
    · exfalso
      have hmeq : m = N := by omega
      rw [hmeq, effLines_nil (le_refl N)] at hsent
      simp [sentinelIdx] at hsent

theorem AtLine.fuel_ok {conf : Config} {L : List (List Char)} {N m : Nat}
    (h : AtLine conf L N m) : N - m < conf.content.length + 1 := by
  have h1 : N ≤ L.length := h.N_le
  have h2 : L.length ≤ posOf L L.length := index_le_posOf L L.length (le_refl _)
  have h3 : conf.content.length = posOf L L.length := by
    rw [h.hcontent, linesContent_length]
  omega

/-- Running `parse_multiline` at a line boundary: with a sentinel line ahead at
relative index `j`, the capture succeeds, the value is `mlValue` of the `j`
body lines, and the reader stops just past the sentinel line. -/
theorem parse_multiline_at {conf : Config} {L : List (List Char)} {N m j : Nat}
    (h : AtLine conf L N m) (hm : m ≤ N)
    (hsent : sentinelIdx (effLines L N m) = some j) :
    parse_multiline conf =
      (some (mlValue ((effLines L N m).take j)),
        advSB conf L (m+j+1) (j+1) (mlValue ((effLines L N m).take j))) ∧
      m + j + 1 ≤ N := by
  have h0 : AtLine ({ conf with strbuf := [] } : Config) L N m :=
    h.of_fields _ m rfl rfl h.hpos h.hm
  have hfuel : N - m < conf.content.length + 1 := h.fuel_ok
  have := parse_multilineLoop_capture (conf.content.length + 1) h0 hm hfuel hsent
  unfold parse_multiline
  rw [show ({ conf with strbuf := [] } : Config).content.length =
    conf.content.length from rfl] at this ⊢
  rw [this.1]
  refine ⟨?_, this.2⟩
  have hs : ({ conf with strbuf := [] } : Config).strbuf = ([] : List Char) := rfl
  rw [hs]
  simp [advSB]

theorem advC_eq_advSB (conf : Config) (L : List (List Char)) (a d : Nat) :
    advC conf L a d = advSB conf L a d conf.strbuf := rfl

/-- One `config_read_line` call at a line boundary, successful case: when the
grammar step on the effective lines yields record `r` consuming `c` physical
lines, the reader returns `r`, advances to the boundary after those lines and
counts them; only the multiline buffer is otherwise touched. -/
theorem config_read_line_step
    {conf : Config} {L : List (List Char)} {N m c : Nat} {r : CLine}
    (h : AtLine conf L N m) (hm : m ≤ N) (herr : conf.error_message = none)
    (hstep : stepScan (effLines L N m) = some (some (r, c))) :
    ∃ sb, config_read_line conf = (some r, advSB conf L (m+c) c sb) ∧
      m + c ≤ N := by
  unfold stepScan at hstep
  cases hfb : firstNonblank (effLines L N m) with
  | none => rw [hfb] at hstep; simp at hstep
  | some p =>
    obtain ⟨j, x⟩ := p
    simp only [hfb] at hstep
    have hread := readNonblankF_some (conf.content.length + 1) h hm h.fuel_ok hfb
    have hrl0 : config_read_line conf =
        match readNonblankF (conf.content.length + 1) conf with
        | (none, c') => (none, c')
        | (some line, c') =>
          match classifyLine line with
          | .secOpen n p => (some (.sectionOpen n p), c')
          | .secClose => (some .sectionClose, c')
          | .badSection => (none, config_error c' "Malformed section opening")
          | .noEquals => (none, config_error c' "Expecting section or key=value")
          | .assignR k v =>
            if v = mlSentinel then
              match parse_multiline c' with
              | (some val, c'') => (some (.assign k val), c'')
              | (none, c'') => (none, config_error c'' "Malformed key=value line")
            else (some (.assign k v), c') := by
      simp only [config_read_line]
      rw [if_neg (by simp [herr])]
      rfl
    rw [hrl0, hread.1]
    cases hcl : classifyLine x with
    | secOpen n pr =>
      simp only [hcl, Option.some.injEq, Prod.mk.injEq] at hstep
      obtain ⟨hr, hc⟩ := hstep
      subst hr; subst hc
      refine ⟨conf.strbuf, ?_, hread.2⟩
      simp only [hcl]
      rw [advC_eq_advSB, show m + (j+1) = m + j + 1 by omega]
    | secClose =>
      simp only [hcl, Option.some.injEq, Prod.mk.injEq] at hstep
      obtain ⟨hr, hc⟩ := hstep
      subst hr; subst hc
      refine ⟨conf.strbuf, ?_, hread.2⟩
      simp only [hcl]
      rw [advC_eq_advSB, show m + (j+1) = m + j + 1 by omega]
    | badSection => simp only [hcl] at hstep; exact absurd hstep (by simp)
    | noEquals => simp only [hcl] at hstep; exact absurd hstep (by simp)
    | assignR k v =>
      simp only [hcl] at hstep ⊢
      by_cases hv : v = mlSentinel
      · rw [if_pos hv] at hstep
        cases hsi : sentinelIdx ((effLines L N m).drop (j+1)) with
        | none => rw [hsi] at hstep; simp at hstep
        | some j2 =>
          simp only [hsi, Option.some.injEq, Prod.mk.injEq] at hstep
          obtain ⟨hr, hc⟩ := hstep
          subst hr; subst hc
          rw [effLines_drop] at hsi
          obtain ⟨hml1, hml2⟩ := parse_multiline_at
            (h.advC_at (m+j+1) (j+1) (by
              have := h.N_le
              omega)) hread.2
            (by rw [show m + (j+1) = m + j + 1 by omega] at hsi; exact hsi)
          refine ⟨mlValue ((effLines L N (m+j+1)).take j2), ?_, by omega⟩
          rw [effLines_drop,
            show m + (j+1) = m + j + 1 by omega,
            show m + (j + 1 + j2 + 1) = m + j + 1 + j2 + 1 by omega]
          rw [if_pos hv, hml1]
          rw [advC_eq_advSB, advSB_advSB,
            show j + 1 + (j2 + 1) = j + 1 + j2 + 1 by omega]
      · rw [if_neg hv] at hstep
        simp only [Option.some.injEq, Prod.mk.injEq] at hstep
        obtain ⟨hr, hc⟩ := hstep
        subst hr; subst hc
        refine ⟨conf.strbuf, ?_, hread.2⟩
        simp only [if_neg hv]
        rw [advC_eq_advSB, show m + (j+1) = m + j + 1 by omega]

/-- One `config_read_line` call at a line boundary, end-of-input case: only
blank lines remain before the bound; the reader reports end of input without
touching the error latch or the multiline buffer. -/
theorem config_read_line_eof
    {conf : Config} {L : List (List Char)} {N m : Nat}
    (h : AtLine conf L N m) (hm : m ≤ N) (herr : conf.error_message = none)
    (hstep : stepScan (effLines L N m) = some none) :
    ∃ m', N ≤ m' ∧ m' ≤ L.length ∧
      config_read_line conf = (none, advC conf L m' (N - m)) := by
  unfold stepScan at hstep
  cases hfb : firstNonblank (effLines L N m) with
  | some p =>
    obtain ⟨j, x⟩ := p
    simp only [hfb] at hstep
    exfalso
    cases hcl : classifyLine x with
    | secOpen n pr => simp only [hcl] at hstep; simp at hstep
    | secClose => simp only [hcl] at hstep; simp at hstep
    | badSection => simp only [hcl] at hstep; simp at hstep
    | noEquals => simp only [hcl] at hstep; simp at hstep
    | assignR k v =>
      simp only [hcl] at hstep
      by_cases hv : v = mlSentinel
      · rw [if_pos hv] at hstep
        cases hsi : sentinelIdx ((effLines L N m).drop (j+1)) with
        | none => rw [hsi] at hstep; simp at hstep
        | some j2 => rw [hsi] at hstep; simp at hstep
      · rw [if_neg hv] at hstep; simp at hstep
  | none =>
    obtain ⟨m', hm1, hm2, hread⟩ :=
      readNonblankF_none (conf.content.length + 1) h hm h.fuel_ok hfb
    refine ⟨m', hm1, hm2, ?_⟩
    have hrl0 : config_read_line conf =
        match readNonblankF (conf.content.length + 1) conf with
        | (none, c') => (none, c')
        | (some line, c') =>
          match classifyLine line with
          | .secOpen n p => (some (.sectionOpen n p), c')
          | .secClose => (some .sectionClose, c')
          | .badSection => (none, config_error c' "Malformed section opening")
          | .noEquals => (none, config_error c' "Expecting section or key=value")
          | .assignR k v =>
            if v = mlSentinel then
              match parse_multiline c' with
              | (some val, c'') => (some (.assign k val), c'')
              | (none, c'') => (none, config_error c'' "Malformed key=value line")
            else (some (.assign k v), c') := by
      simp only [config_read_line]
      rw [if_neg (by simp [herr])]
      rfl
    rw [hrl0, hread]

theorem stepScan_pos {M : List (List Char)} {r : CLine} {c : Nat}
    (h : stepScan M = some (some (r, c))) : 1 ≤ c := by
  unfold stepScan at h
  cases hfb : firstNonblank M with
  | none => rw [hfb] at h; simp at h
  | some p =>
    obtain ⟨j, x⟩ := p
    simp only [hfb] at h
    cases hcl : classifyLine x with
    | secOpen n pr =>
      simp only [hcl, Option.some.injEq, Prod.mk.injEq] at h
      omega
    | secClose =>
      simp only [hcl, Option.some.injEq, Prod.mk.injEq] at h
      omega
    | badSection => simp only [hcl] at h; exact absurd h (by simp)
    | noEquals => simp only [hcl] at h; exact absurd h (by simp)
    | assignR k v =>
      simp only [hcl] at h
      by_cases hv : v = mlSentinel
      · rw [if_pos hv] at h
        cases hsi : sentinelIdx (M.drop (j+1)) with
        | none => rw [hsi] at h; simp at h
        | some j2 =>
          simp only [hsi, Option.some.injEq, Prod.mk.injEq] at h
          omega
      · rw [if_neg hv] at h
        simp only [Option.some.injEq, Prod.mk.injEq] at h
        omega

/-- Iterated reading reproduces the reference record scan: on an input whose
effective lines scan cleanly, `config_read_line` delivers exactly those
records in order and ends at end-of-input with no error latched. -/
theorem readAllF_records (fuelS : Nat) :
    ∀ {conf : Config} {L : List (List Char)} {N m : Nat} {rs : List CLine}
    (fuelC : Nat),
    AtLine conf L N m → m ≤ N → conf.error_message = none →
    recordsScanF fuelS (effLines L N m) = some rs →
    N - m < fuelC →
    (readAllF fuelC conf).1 = rs ∧
      ((readAllF fuelC conf).2).error_message = none := by
  induction fuelS with
  | zero => intro conf L N m rs fuelC h hm herr hscan hfc; simp [recordsScanF] at hscan
  | succ fuelS ih =>
    intro conf L N m rs fuelC h hm herr hscan hfc
    unfold recordsScanF at hscan
    obtain ⟨fc, rfl⟩ : ∃ fc, fuelC = fc + 1 := ⟨fuelC - 1, by omega⟩
    cases hss : stepScan (effLines L N m) with
    | none => rw [hss] at hscan; simp at hscan
    | some o =>
      cases o with
      | none =>
        rw [hss] at hscan
        have hrs : rs = [] := (Option.some.inj hscan).symm
        subst hrs
        obtain ⟨m', _, _, hrl⟩ := config_read_line_eof h hm herr hss
        constructor
        · simp only [readAllF, hrl]
        · simp only [readAllF, hrl]
          exact herr
      | some p =>
        obtain ⟨r, c⟩ := p
        rw [hss] at hscan
        simp only [Option.map_eq_some'] at hscan
        obtain ⟨rs', hscan', hrs⟩ := hscan
        subst hrs
        obtain ⟨sb, hrl, hmc⟩ := config_read_line_step h hm herr hss
        have hc1 : 1 ≤ c := stepScan_pos hss
        have h2 : AtLine (advSB conf L (m+c) c sb) L N (m+c) :=
          h.advSB_at (m+c) c sb (le_trans hmc h.N_le)
        have herr2 : (advSB conf L (m+c) c sb).error_message = none := herr
        rw [effLines_drop] at hscan'
        have hrec := ih fc h2 hmc herr2 hscan' (by omega)
        constructor
        · simp only [readAllF, hrl]
          rw [hrec.1]
        · simp only [readAllF, hrl]
          exact hrec.2

/-- The section-skip scan reproduces the reference skip scan: when the
reference finds the matching close after `c` physical lines, the code's
`find_section_end` succeeds, lands just past the close and counts the
consumed lines, leaving the error latch clean. -/
theorem find_section_endF_sim (fuelS : Nat) :
    ∀ {conf : Config} {L : List (List Char)} {N m c level : Nat}
    (fuelC : Nat),
    AtLine conf L N m → m ≤ N → conf.error_message = none →
    skipScanF fuelS (effLines L N m) level = some c →
    N - m < fuelC →
    ∃ sb, find_section_endF fuelC conf level = (true, advSB conf L (m+c) c sb)
      ∧ m + c ≤ N ∧ 1 ≤ c := by
  induction fuelS with
  | zero =>
    intro conf L N m c level fuelC h hm herr hskip hfc
    simp [skipScanF] at hskip
  | succ fuelS ih =>
    intro conf L N m c level fuelC h hm herr hskip hfc
    unfold skipScanF at hskip
    by_cases hlev : 10 < level
    · rw [if_pos hlev] at hskip; simp at hskip
    rw [if_neg hlev] at hskip
    obtain ⟨fc, rfl⟩ : ∃ fc, fuelC = fc + 1 := ⟨fuelC - 1, by omega⟩
    cases hss : stepScan (effLines L N m) with
    | none => rw [hss] at hskip; simp at hskip
    | some o =>
      cases o with
      | none => rw [hss] at hskip; simp at hskip
      | some p =>
        obtain ⟨r, c1⟩ := p
        simp only [hss] at hskip
        have hc1 : 1 ≤ c1 := stepScan_pos hss
        obtain ⟨sb1, hrl, hmc1⟩ := config_read_line_step h hm herr hss
        have h2 : AtLine (advSB conf L (m+c1) c1 sb1) L N (m+c1) :=
          h.advSB_at (m+c1) c1 sb1 (le_trans hmc1 h.N_le)
        have herr2 : (advSB conf L (m+c1) c1 sb1).error_message = none := herr
        cases r with
        | assign k v =>
          simp only [Option.map_eq_some'] at hskip
          obtain ⟨c3, hskip', hc⟩ := hskip
          subst hc
          rw [effLines_drop] at hskip'
          obtain ⟨sb, hfse, hb, hcpos⟩ := ih fc h2 hmc1 herr2 hskip' (by omega)
          refine ⟨sb, ?_, by omega, by omega⟩
          simp only [find_section_endF, if_neg hlev, hrl]
          rw [hfse, advSB_advSB]
          rw [show m + c1 + c3 = m + (c1 + c3) by omega]
        | sectionClose =>
          have hc : c1 = c := Option.some.inj hskip
          subst hc
          refine ⟨sb1, ?_, hmc1, hc1⟩
          simp only [find_section_endF, if_neg hlev, hrl]
        | sectionOpen n pr =>
          cases hsk2 : skipScanF fuelS ((effLines L N m).drop c1) (level+1) with
          | none => rw [hsk2] at hskip; simp at hskip
          | some c2 =>
            rw [hsk2] at hskip
            simp only [Option.map_eq_some'] at hskip
            obtain ⟨c3, hskip3, hc⟩ := hskip
            subst hc
            rw [effLines_drop] at hsk2
            obtain ⟨sb2, hfse2, hb2, hc2pos⟩ := ih fc h2 hmc1 herr2 hsk2 (by omega)
            have h3 : AtLine (advSB (advSB conf L (m+c1) c1 sb1) L
                (m+c1+c2) c2 sb2) L N (m+c1+c2) :=
              h2.advSB_at (m+c1+c2) c2 sb2 (by
                have := h.N_le
                omega)
            have herr3 : ((advSB (advSB conf L (m+c1) c1 sb1) L
                (m+c1+c2) c2 sb2)).error_message = none := herr
            have hskip3' : skipScanF fuelS
                (effLines L N (m + c1 + c2)) level = some c3 := by
              rw [List.drop_drop] at hskip3
              rw [effLines_drop, show m + (c1 + c2) = m + c1 + c2 by omega]
                at hskip3
              exact hskip3
            obtain ⟨sb, hfse3, hb3, hc3pos⟩ := ih fc h3 (by omega) herr3
              hskip3' (by omega)
            refine ⟨sb, ?_, by omega, by omega⟩
            simp only [find_section_endF, if_neg hlev, hrl]
            rw [advSB_advSB] at hfse2
            rw [hfse2]
            rw [advSB_advSB] at hfse3
            rw [advSB_advSB] at hfse3
            show find_section_endF fc
              (advSB conf L (m + c1 + c2) (c1 + c2) sb2) level = _
            rw [hfse3]
            rw [show m + c1 + c2 + c3 = m + (c1 + c2 + c3) by omega]

/-- Iterated `config_fgets` delivers exactly the effective lines, each with
its newline; the final cursor rests at or past the bound with the line
counter having counted exactly the delivered lines. -/
theorem fgetsAllF_at (fuel : Nat) :
    ∀ {conf : Config} {L : List (List Char)} {N m : Nat},
    AtLine conf L N m → m ≤ N → N - m < fuel →
    (fgetsAllF fuel conf).1 = (effLines L N m).map (· ++ ['\n']) ∧
    ∃ m', N ≤ m' ∧ m' ≤ L.length ∧
      (fgetsAllF fuel conf).2 = advC conf L m' (N - m) := by
  induction fuel with
  | zero => intro conf L N m h hm hfc; omega
  | succ fuel ih =>
    intro conf L N m h hm hfc
    by_cases hmN : m < N
    · have hdel := config_fgets_deliver_adv h hmN
      have h2 : AtLine (advC conf L (m+1) 1) L N (m+1) :=
        h.advC_at (m+1) 1 (by
          have := h.N_le
          omega)
      obtain ⟨hmap, m', hm1, hm2, hfin⟩ := ih h2 (by omega) (by omega)
      rw [effLines_cons hmN h.N_le]
      constructor
      · simp only [fgetsAllF, hdel, List.map_cons]
        rw [hmap]
      · refine ⟨m', hm1, hm2, ?_⟩
        simp only [fgetsAllF, hdel]
        rw [hfin, advC_advC, show 1 + (N - (m+1)) = N - m by omega]
    · have hmeq : m = N := by omega
      subst hmeq
      obtain ⟨m', hm1, hm2, _, href⟩ := config_fgets_refuse_adv h (le_refl m)
      rw [effLines_nil (le_refl m)]
      constructor
      · simp only [fgetsAllF, href]
        rfl
      · refine ⟨m', hm1, hm2, ?_⟩
        simp only [fgetsAllF, href]
        rw [show m - m = 0 from by omega]

/-! ### Prefix transfer and section-body helpers -/

theorem effLines_unbounded (L : List (List Char)) (i : Nat) :
    effLines L L.length i = L.drop i := by
  simp [effLines]

theorem effLines_take (L : List (List Char)) (N m : Nat) :
    effLines L N m = (L.drop m).take (N - m) := by
  simp [effLines, List.drop_take]

theorem firstNonblank_lt {M : List (List Char)} {j : Nat} {x : List Char}
    (h : firstNonblank M = some (j, x)) : j < M.length := by
  induction M generalizing j with
  | nil => simp [firstNonblank] at h
  | cons l ls ih =>
    unfold firstNonblank at h
    by_cases hb : normLine l = []
    · rw [if_pos hb, Option.map_eq_some'] at h
      obtain ⟨⟨j0, x0⟩, h0, hjx⟩ := h
      have hj : j = j0 + 1 := by
        have := congrArg Prod.fst hjx
        simpa using this.symm
      subst hj
      have := ih (by
        have hx : x = x0 := by
          have := congrArg Prod.snd hjx
          simpa using this.symm
        rw [hx]
        exact h0)
      simpa using Nat.succ_lt_succ this
    · rw [if_neg hb] at h
      have : j = 0 := by
        have := congrArg Prod.fst (Option.some.inj h)
        simpa using this.symm
      subst this
      simp
  
theorem sentinelIdx_lt {M : List (List Char)} {j : Nat}
    (h : sentinelIdx M = some j) : j < M.length := by
  induction M generalizing j with
  | nil => simp [sentinelIdx] at h
  | cons l ls ih =>
    unfold sentinelIdx at h
    by_cases hs : trimC l = mlSentinel
    · rw [if_pos hs] at h
      have : j = 0 := (Option.some.inj h).symm
      subst this
      simp
    · rw [if_neg hs, Option.map_eq_some'] at h
      obtain ⟨j0, h0, hj⟩ := h
      subst hj
      simpa using Nat.succ_lt_succ (ih h0)

theorem firstNonblank_append {A : List (List Char)} (B : List (List Char))
    {j : Nat} {x : List Char} (h : firstNonblank A = some (j, x)) :
    firstNonblank (A ++ B) = some (j, x) := by
  induction A generalizing j with
  | nil => simp [firstNonblank] at h
  | cons l ls ih =>
    unfold firstNonblank at h
    rw [List.cons_append]
    show (if normLine l = [] then
        (firstNonblank (ls ++ B)).map (fun p => (p.1 + 1, p.2))
      else some (0, normLine l)) = some (j, x)
    by_cases hb : normLine l = []
    · rw [if_pos hb] at h ⊢
      rw [Option.map_eq_some'] at h
      obtain ⟨⟨j0, x0⟩, h0, hjx⟩ := h
      have hx : x0 = x := by
        have := congrArg Prod.snd hjx
        simpa using this
      subst hx
      rw [ih h0]
      simpa using hjx
    · rw [if_neg hb] at h ⊢
      exact h

theorem sentinelIdx_append {A : List (List Char)} (B : List (List Char))
    {j : Nat} (h : sentinelIdx A = some j) :
    sentinelIdx (A ++ B) = some j := by
  induction A generalizing j with
  | nil => simp [sentinelIdx] at h
  | cons l ls ih =>
    unfold sentinelIdx at h
    rw [List.cons_append]
    show (if trimC l = mlSentinel then some 0
      else (sentinelIdx (ls ++ B)).map (· + 1)) = some j
    by_cases hs : trimC l = mlSentinel
    · rw [if_pos hs] at h ⊢
      exact h
    · rw [if_neg hs] at h ⊢
      rw [Option.map_eq_some'] at h
      obtain ⟨j0, h0, hj⟩ := h
      rw [ih h0]
      simpa using hj

theorem stepScanExtend {A : List (List Char)} (B : List (List Char))
    {r : CLine} {c : Nat} (h : stepScan A = some (some (r, c))) :
    stepScan (A ++ B) = some (some (r, c)) := by
  unfold stepScan at h
  cases hfb : firstNonblank A with
  | none => rw [hfb] at h; simp at h
  | some p =>
    obtain ⟨j, x⟩ := p
    have hjlt : j < A.length := firstNonblank_lt hfb
    have hfbB := firstNonblank_append B hfb
    simp only [hfb] at h
    cases hcl : classifyLine x with
    | secOpen n pr =>
      simp only [stepScan, hfbB, hcl]
      simp only [hcl] at h
      exact h
    | secClose =>
      simp only [stepScan, hfbB, hcl]
      simp only [hcl] at h
      exact h
    | badSection => simp only [hcl] at h; exact absurd h (by simp)
    | noEquals => simp only [hcl] at h; exact absurd h (by simp)
    | assignR k v =>
      simp only [hcl] at h
      simp only [stepScan, hfbB, hcl]
      by_cases hv : v = mlSentinel
      · rw [if_pos hv] at h ⊢
        cases hsi : sentinelIdx (A.drop (j+1)) with
        | none => rw [hsi] at h; simp at h
        | some j2 =>
          simp only [hsi] at h
          have hj2 : j2 < (A.drop (j+1)).length := sentinelIdx_lt hsi
          have hdropA : (A ++ B).drop (j+1) = A.drop (j+1) ++ B :=
            List.drop_append_of_le_length (by omega)
          simp only [hdropA, sentinelIdx_append B hsi]
          rw [List.take_append_of_le_length (by omega)]
          exact h
      · rw [if_neg hv] at h ⊢
        exact h

theorem sentinelIdx_decomp (B : List (List Char)) (s : List Char)
    (rest : List (List Char)) (hbody : ∀ l ∈ B, trimC l ≠ mlSentinel)
    (hs : trimC s = mlSentinel) :
    sentinelIdx (B ++ s :: rest) = some B.length := by
  induction B with
  | nil => simp [sentinelIdx, hs]
  | cons l ls ih =>
    rw [List.cons_append]
    show (if trimC l = mlSentinel then some 0
      else (sentinelIdx (ls ++ s :: rest)).map (· + 1)) = some (l :: ls).length
    rw [if_neg (hbody l (by simp))]
    rw [ih (fun t ht => hbody t (by simp [ht]))]
    simp

theorem boundaryConf_at (L : List (List Char)) (i ln : Nat) (sb : List Char)
    (hnl : noNL L) (hi : i ≤ L.length) :
    AtLine (boundaryConf L i ln sb) L L.length i := by
  refine ⟨hnl, rfl, rfl, hi, Or.inl ⟨?_, rfl⟩⟩
  show (-1 : Int) ≤ 0
  norm_num

theorem isoConf_at (L : List (List Char)) (i c : Nat) (hnl : noNL L)
    (hc : 1 ≤ c) (hic : i + c ≤ L.length) :
    AtLine (isoConf L i c) L (i + c - 1) i := by
  refine ⟨hnl, rfl, rfl, by omega, Or.inr ⟨i + c, by omega, hic, rfl, rfl⟩⟩

/-- Successful isolation: from a reader at the body start of a section whose
reference skip scan finds the matching close after `c` lines,
`config_isolate_section` succeeds, hands back the original reader with its
cursor restored to the body start and its line counter reset (only the
multiline scratch buffer may differ), and produces exactly the bounded
sub-reader `isoConf`. -/
theorem isolate_success_aux (L : List (List Char)) (i c ln : Nat)
    (sb : List Char) (l : CLine) (hnl : noNL L) (hi : i ≤ L.length)
    (hl : l.isSectionOpen = true) (hskip : skipScan (L.drop i) 0 = some c) :
    ∃ sb2,
      config_isolate_section (boundaryConf L i ln sb) l =
        (true, { boundaryConf L i ln sb with strbuf := sb2 },
          some (isoConf L i c)) ∧
      i + c ≤ L.length ∧ 1 ≤ c := by
  have hat : AtLine (boundaryConf L i ln sb) L L.length i :=
    boundaryConf_at L i ln sb hnl hi
  have hscan : skipScanF ((L.drop i).length + 1) (effLines L L.length i) 0 =
      some c := by
    rw [effLines_unbounded]
    exact hskip
  obtain ⟨sbX, hfse, hbnd, hcpos⟩ := find_section_endF_sim
    ((L.drop i).length + 1) ((boundaryConf L i ln sb).content.length + 1)
    hat hi rfl hscan hat.fuel_ok
  refine ⟨sbX, ?_, hbnd, hcpos⟩
  have hfse' : find_section_end (boundaryConf L i ln sb) 0 =
      (true, advSB (boundaryConf L i ln sb) L (i+c) c sbX) := hfse
  simp only [config_isolate_section]
  rw [if_neg (by simp [boundaryConf])]
  rw [if_neg (by simp [hl])]
  simp only [hfse']
  rfl

/-! ### The claims -/

/-- Claim C4: once an error message has been recorded it is never replaced
or cleared for the lifetime of the reader; every subsequent call to
`config_read_line`, `config_skip_section` or `config_isolate_section`
immediately returns failure leaving both the reader and the stored message
unchanged, and two consecutive calls after a failure return the same failure
and the same message. -/
theorem C4_error_latch (conf : Config) (msg msg2 : String) (l : CLine)
    (h : conf.error_message = some msg) :
    config_error conf msg2 = conf ∧
    config_read_line conf = (none, conf) ∧
    config_skip_section conf l = (false, conf) ∧
    config_isolate_section conf l = (false, conf, none) ∧
    config_read_line ((config_read_line conf).2) = (none, conf) ∧
    ((config_read_line conf).2).error_message = some msg ∧
    config_skip_section ((config_skip_section conf l).2) l = (false, conf) := by
  have h1 : config_error conf msg2 = conf := by simp [config_error, h]
  have h2 : config_read_line conf = (none, conf) := by
    simp only [config_read_line]
    rw [if_pos (by simp [h])]
  have h3 : config_skip_section conf l = (false, conf) := by
    simp only [config_skip_section]
    rw [if_pos (by simp [h])]
  have h4 : config_isolate_section conf l = (false, conf, none) := by
    simp only [config_isolate_section]
    rw [if_pos (by simp [h])]
  refine ⟨h1, h2, h3, h4, ?_, ?_, ?_⟩
  · rw [h2]; exact h2
  · rw [h2]; exact h
  · rw [h3]; exact h3

/-- Witness for C4 at a concrete reader with a latched message. -/
theorem C4_witness :
    confErr.error_message = some "boom" ∧
    config_error confErr "other" = confErr ∧
    config_read_line confErr = (none, confErr) ∧
    config_skip_section confErr CLine.sectionClose = (false, confErr) ∧
    config_isolate_section confErr CLine.sectionClose =
      (false, confErr, none) ∧
    config_read_line ((config_read_line confErr).2) = (none, confErr) ∧
    ((config_read_line confErr).2).error_message = some "boom" := by
  have h := C4_error_latch confErr "boom" "other" CLine.sectionClose rfl
  exact ⟨rfl, h.1, h.2.1, h.2.2.1, h.2.2.2.1, h.2.2.2.2.1, h.2.2.2.2.2.1⟩

/-- Claim C10: with no latched error, `config_skip_section` and
`config_isolate_section` called with a structured line that is not a
section opening return false without recording any error message and
without advancing the reader's cursor or line counter (the reader is
returned unchanged). -/
theorem C10_non_section_noop (conf : Config) (l : CLine)
    (herr : conf.error_message = none) (hl : l.isSectionOpen = false) :
    config_skip_section conf l = (false, conf) ∧
    config_isolate_section conf l = (false, conf, none) := by
  constructor
  · simp only [config_skip_section]
    rw [if_neg (by simp [herr]), if_pos hl]
  · simp only [config_isolate_section]
    rw [if_neg (by simp [herr]), if_pos hl]

/-- Witness for C10: a section-close record on a fresh reader. -/
theorem C10_witness :
    (openConfig LC2).error_message = none ∧
    CLine.sectionClose.isSectionOpen = false ∧
    config_skip_section (openConfig LC2) CLine.sectionClose =
      (false, openConfig LC2) ∧
    config_isolate_section (openConfig LC2) CLine.sectionClose =
      (false, openConfig LC2, none) := by
  have h := C10_non_section_noop (openConfig LC2) CLine.sectionClose rfl rfl
  exact ⟨rfl, rfl, h.1, h.2⟩

/-- Claim C9: `parse_time_period` returns the caller-supplied default when
the parsed `<integer><unit>` components sum to zero (`total` stays 0, e.g.
for `0s`), and for a NULL input string. -/
theorem C9_zero_total_default (s : List Char) (d : Nat)
    (h : ptpTotal s = 0) :
    parse_time_period (some s) d = d ∧ parse_time_period none d = d := by
  constructor
  · simp [parse_time_period, h]
  · rfl

/-- Witness for C9 at the input `0s` with default 7. -/
theorem C9_witness :
    ptpTotal (("0s").toList) = 0 ∧
    parse_time_period (some (("0s").toList)) 7 = 7 ∧
    parse_time_period none 7 = 7 :=
  ⟨by decide, (C9_zero_total_default (("0s").toList) 7 (by decide)).1,
    (C9_zero_total_default (("0s").toList) 7 (by decide)).2⟩

/-- Counterexample to claim C6: the code strips from the LAST `#`, not the
first.  On the line `k = v#w # c` the retained content is `k = v#w` — the
trimmed prefix before the last `#` — not the trimmed prefix `k = v` before
the first `#`, and the resulting assignment carries value `v#w`, not `v`. -/
theorem C6_counterexample :
    normLine (("k = v#w # c").toList) = ("k = v#w").toList ∧
    ("k = v#w").toList ≠ ("k = v").toList ∧
    (config_read_line (openConfig LC6)).1 =
      some (CLine.assign (("k").toList) (("v#w").toList)) ∧
    ("v#w").toList ≠ ("v").toList := by decide

/-- Claim C6 (amended): for every physical line containing at least one `#`,
normalization removes everything from the LAST `#` onward before the line is
interpreted, so for a line with several `#` characters the retained content
is the trimmed prefix before the last `#`.  (Writing the line as
`a ++ '#' :: b` with `b` free of `#` makes that `#` the last one.) -/
theorem C6_comment_last_hash (a b : List Char) (hb : '#' ∉ b) :
    remove_comments (a ++ '#' :: b) = a ∧
    normLine (a ++ '#' :: b) = trimC a := by
  have h1 : remove_comments (a ++ '#' :: b) = a := by
    have hcont : (a ++ '#' :: b).contains '#' = true := by
      rw [contains_eq_decide_mem]
      exact decide_eq_true (by simp)
    unfold remove_comments
    rw [if_pos hcont]
    have hrev : (a ++ '#' :: b).reverse = b.reverse ++ '#' :: a.reverse := by
      simp
    rw [hrev]
    rw [dropWhile_append_of_all _ _ (fun x hx => by
      have hxb : x ∈ b := List.mem_reverse.mp hx
      have hxne : x ≠ '#' := fun he => hb (he ▸ hxb)
      simpa using hxne)]
    rw [List.dropWhile_cons]
    rw [if_neg (by simp)]
    simp
  exact ⟨h1, by unfold normLine; rw [h1]⟩

/-- Witness for amended C6 on `k = v#w # c` split at its last `#`. -/
theorem C6_witness :
    ('#' ∉ ((" c").toList)) ∧
    remove_comments (("k = v#w ").toList ++ '#' :: (" c").toList) =
      ("k = v#w ").toList ∧
    normLine (("k = v#w ").toList ++ '#' :: (" c").toList) =
      trimC (("k = v#w ").toList) :=
  ⟨by decide,
    (C6_comment_last_hash (("k = v#w ").toList) ((" c").toList) (by decide)).1,
    (C6_comment_last_hash (("k = v#w ").toList) ((" c").toList) (by decide)).2⟩

/-- Counterexample to claim C8: classifying the first line
`db \x7b host = local` does NOT fail with the malformed-section-opening
error — the brace is not the line's last character, so the trailing-brace
rule never fires; the line is parsed as the assignment
`db_\x7b_host = local` with no error recorded. -/
theorem C8_counterexample :
    (config_read_line (openConfig LC8)).1 =
      some (CLine.assign (("db_\x7b_host").toList) (("local").toList)) ∧
    ((config_read_line (openConfig LC8)).2).error_message = none := by decide

/-- Claim C8 (amended): `db \x7b host = local` is classified as an
assignment record with key `db_\x7b_host` and value `local` (the trailing
`=`-split rule applies because the brace is not last), while a section-open
line with the brace last and no space before it, such as `db\x7b`, does
fail with the malformed-section-opening error. -/
theorem C8_assignment_and_malformed :
    ((config_read_line (openConfig LC8)).1 =
      some (CLine.assign (("db_\x7b_host").toList) (("local").toList)) ∧
     ((config_read_line (openConfig LC8)).2).error_message = none) ∧
    ((config_read_line (openConfig LC8b)).1 = none ∧
     ((config_read_line (openConfig LC8b)).2).error_message =
       some "Malformed section opening") := by decide

/-- Counterexample to claim C5: a synthetic input with exactly 11 nested
section-opens before any close does NOT fail when skipped — the depth check
`recursion_level > 10` only rejects the 12th nesting level; the skip
succeeds with no error latched. -/
theorem C5_counterexample :
    (config_read_line (openConfig (nestLines 11))).1 = some nestOpen ∧
    (config_skip_section ((config_read_line (openConfig (nestLines 11))).2)
      nestOpen).1 = true ∧
    ((config_skip_section ((config_read_line (openConfig (nestLines 11))).2)
      nestOpen).2).error_message = none := by decide

/-- Claim C5 (amended): skipping a synthetic input with exactly 12 nested
section-opens before any close fails with the recursion-too-deep error,
and skipping one with exactly 11 nested section-opens (each later matched
by a close) succeeds. -/
theorem C5_depth_boundary :
    ((config_read_line (openConfig (nestLines 12))).1 = some nestOpen ∧
     (config_skip_section ((config_read_line (openConfig (nestLines 12))).2)
       nestOpen).1 = false ∧
     ((config_skip_section ((config_read_line (openConfig (nestLines 12))).2)
       nestOpen).2).error_message = some "Recursion level too deep") ∧
    ((config_read_line (openConfig (nestLines 11))).1 = some nestOpen ∧
     (config_skip_section ((config_read_line (openConfig (nestLines 11))).2)
       nestOpen).1 = true ∧
     ((config_skip_section ((config_read_line (openConfig (nestLines 11))).2)
       nestOpen).2).error_message = none) := by decide

/-- Claim C1: for every well-formed input with balanced brace nesting,
repeatedly calling `config_read_line` until end-of-input yields every
assignment record and every section-open and section-close boundary of the
input exactly once, in source order, with no error latched.  Well-formedness
of the input (each nonblank line classifies, each multiline capture
terminates) is `recordsScan L = some rs`; the reader then delivers exactly
`rs` and finishes with an empty error latch. -/
theorem C1_sequential_classification (L : List (List Char)) (rs : List CLine)
    (hnl : noNL L) (hwf : recordsScan L = some rs)
    (hbal : balancedRecords rs) :
    (readAll (openConfig L)).1 = rs ∧
      ((readAll (openConfig L)).2).error_message = none := by
  have hat : AtLine (openConfig L) L L.length 0 := by
    refine ⟨hnl, rfl, rfl, by omega, Or.inl ⟨?_, rfl⟩⟩
    show (-1 : Int) ≤ 0
    norm_num
  have hscan : recordsScanF (L.length + 1) (effLines L L.length 0) = some rs := by
    rw [effLines_unbounded, List.drop_zero]
    exact hwf
  exact readAllF_records (L.length + 1)
    ((openConfig L).content.length + 1) hat (by omega) rfl hscan hat.fuel_ok

/-- Witness for C1 at a concrete three-line input: one section containing
one assignment. -/
theorem C1_witness :
    noNL LC1 ∧ recordsScan LC1 = some rsC1 ∧ balancedRecords rsC1 ∧
    (readAll (openConfig LC1)).1 = rsC1 ∧
    ((readAll (openConfig LC1)).2).error_message = none :=
  ⟨by decide, by decide, by decide,
    (C1_sequential_classification LC1 rsC1 (by decide) (by decide)
      (by decide)).1,
    (C1_sequential_classification LC1 rsC1 (by decide) (by decide)
      (by decide)).2⟩

/-- Counterexample to claim C7: multiline capture is not verbatim.  For the
body lines `a#b` and an embedded blank line, the captured value is
`a#b\n\n\n` — the blank body line is appended together with its own newline
and then the per-line newline, contributing two newlines — whereas the
claimed verbatim capture with one `\n` per body line would be `a#b\n\n`. -/
theorem C7_counterexample :
    (config_read_line (openConfig LC7)).1 =
      some (CLine.assign (("k").toList) (("a#b\n\n\n").toList)) ∧
    ("a#b\n\n\n").toList ≠ ("a#b\n\n").toList := by decide

/-- Claim C7 (amended): for every multiline capture whose body lines contain
no line trimming to the sentinel, the resulting value is, for each body
line, `capturedLine` of it followed by `\n` (including the final line):
trailing whitespace is stripped from each line while leading whitespace and
`#` characters are preserved, except that a line consisting entirely of
whitespace is kept in full — newline included — so an embedded blank line
contributes two newlines.  No comment stripping is applied. -/
theorem C7_multiline_capture (L : List (List Char)) (i ln : Nat)
    (sb : List Char) (B : List (List Char)) (s : List Char)
    (rest : List (List Char)) (hnl : noNL L) (hi : i ≤ L.length)
    (hdrop : L.drop i = B ++ s :: rest)
    (hbody : ∀ l ∈ B, trimC l ≠ mlSentinel) (hs : trimC s = mlSentinel) :
    parse_multiline (boundaryConf L i ln sb) =
      (some (mlValue B),
        advSB (boundaryConf L i ln sb) L (i + B.length + 1) (B.length + 1)
          (mlValue B)) := by
  have hat := boundaryConf_at L i ln sb hnl hi
  have hsent : sentinelIdx (effLines L L.length i) = some B.length := by
    rw [effLines_unbounded, hdrop]
    exact sentinelIdx_decomp B s rest hbody hs
  have hres := parse_multiline_at hat hi hsent
  have htake : (effLines L L.length i).take B.length = B := by
    rw [effLines_unbounded, hdrop, show B ++ s :: rest = B ++ (s :: rest) from
      rfl, List.take_left ..]
  rw [htake] at hres
  exact hres.1

/-- Witness for amended C7 at the concrete capture with a `#` line, a blank
line and a stray-whitespace-free body. -/
theorem C7_witness :
    noNL LC7 ∧ LC7.drop 1 = [("a#b").toList, ([] : List Char)] ++
      mlSentinel :: [] ∧
    (∀ l ∈ [("a#b").toList, ([] : List Char)], trimC l ≠ mlSentinel) ∧
    trimC mlSentinel = mlSentinel ∧
    parse_multiline (boundaryConf LC7 1 1 []) =
      (some (mlValue [("a#b").toList, ([] : List Char)]),
        advSB (boundaryConf LC7 1 1 []) LC7 4 3
          (mlValue [("a#b").toList, ([] : List Char)])) :=
  ⟨by decide, by decide, by decide, by decide,
    C7_multiline_capture LC7 1 1 [] [("a#b").toList, ([] : List Char)]
      mlSentinel [] (by decide) (by decide) (by decide) (by decide)
      (by decide)⟩

/-- Claim C2: for a reader positioned immediately after a section-open line
(boundary of line `i`, no error, no bound), a successful
`config_isolate_section` — success characterized by the reference skip scan
finding the matching close after `c` lines — produces the sub-reader
`isoConf L i c`, whose delivered physical lines are exactly the section body
(every line strictly between the open and its matching close, neither
delimiter included) and which then reports end-of-input even though the
backing stream continues; the original reader comes back with its cursor
restored to the byte offset just after the section-open line and its line
counter reset to its pre-skip value (only its multiline scratch buffer may
differ). -/
theorem C2_isolated_subreader (L : List (List Char)) (i c ln : Nat)
    (sb : List Char) (l : CLine) (hnl : noNL L) (hi : i ≤ L.length)
    (hl : l.isSectionOpen = true) (hskip : skipScan (L.drop i) 0 = some c) :
    ∃ sb2,
      config_isolate_section (boundaryConf L i ln sb) l =
        (true, { boundaryConf L i ln sb with strbuf := sb2 },
          some (isoConf L i c)) ∧
      (fgetsAll (isoConf L i c)).1 =
        ((L.drop i).take (c-1)).map (· ++ ['\n']) ∧
      (config_fgets ((fgetsAll (isoConf L i c)).2)).1 = none := by
  obtain ⟨sb2, hiso, hic, hc⟩ := isolate_success_aux L i c ln sb l hnl hi hl
    hskip
  have hat : AtLine (isoConf L i c) L (i+c-1) i := isoConf_at L i c hnl hc hic
  have hfg := fgetsAllF_at ((isoConf L i c).content.length + 1) hat (by omega)
    hat.fuel_ok
  have heff : effLines L (i+c-1) i = (L.drop i).take (c-1) := by
    rw [effLines_take]
    congr 1
    omega
  refine ⟨sb2, hiso, ?_, ?_⟩
  · have h1 := hfg.1
    rw [heff] at h1
    exact h1
  · obtain ⟨m', hm1, hm2, hfin⟩ := hfg.2
    have hat2 : AtLine ((fgetsAll (isoConf L i c)).2) L (i+c-1) m' := by
      show AtLine ((fgetsAllF ((isoConf L i c).content.length + 1)
        (isoConf L i c)).2) L (i+c-1) m'
      rw [hfin]
      exact hat.advC_at m' (i+c-1-i) hm2
    obtain ⟨m'', _, _, _, hnone⟩ := config_fgets_refuse_adv hat2 hm1
    rw [hnone]

/-- Witness for C2: isolating the one-assignment section of a concrete
four-line input. -/
theorem C2_witness :
    noNL LC2 ∧ (1 : Nat) ≤ LC2.length ∧
    (CLine.sectionOpen (("s").toList) (("p").toList)).isSectionOpen = true ∧
    skipScan (LC2.drop 1) 0 = some 2 ∧
    (∃ sb2,
      config_isolate_section (boundaryConf LC2 1 1 [])
          (CLine.sectionOpen (("s").toList) (("p").toList)) =
        (true, { boundaryConf LC2 1 1 [] with strbuf := sb2 },
          some (isoConf LC2 1 2)) ∧
      (fgetsAll (isoConf LC2 1 2)).1 =
        ((LC2.drop 1).take 1).map (· ++ ['\n']) ∧
      (config_fgets ((fgetsAll (isoConf LC2 1 2)).2)).1 = none) :=
  ⟨by decide, by decide, by decide, by decide,
    C2_isolated_subreader LC2 1 2 1 []
      (CLine.sectionOpen (("s").toList) (("p").toList))
      (by decide) (by decide) (by decide) (by decide)⟩

/-- Counterexample to claim C3: after a successful isolation the original
reader's next `config_read_line` does NOT return the line following the
section's matching close.  On `s p \x7b / a = 1 / \x7d / b = 2`, after
isolating the section the original reader's next read returns `a = 1` — the
first body line, since the cursor was rewound to just after the open — and
not `b = 2`, the line following the close. -/
theorem C3_counterexample :
    (config_read_line (openConfig LC2)).1 =
      some (CLine.sectionOpen (("s").toList) (("p").toList)) ∧
    (config_isolate_section ((config_read_line (openConfig LC2)).2)
      (CLine.sectionOpen (("s").toList) (("p").toList))).1 = true ∧
    (config_read_line ((config_isolate_section
        ((config_read_line (openConfig LC2)).2)
        (CLine.sectionOpen (("s").toList) (("p").toList))).2.1)).1 =
      some (CLine.assign (("a").toList) (("1").toList)) ∧
    some (CLine.assign (("a").toList) (("1").toList)) ≠
      some (CLine.assign (("b").toList) (("2").toList)) := by decide

/-- Claim C3 (amended): after a successful `config_isolate_section` on
section S, the sub-reader's full record sequence equals exactly the records
of the lines strictly between S's open and its matching close, and the
original reader's next `config_read_line` re-reads the section body: it
returns the FIRST record of the body (the reader was rewound to just after
the open), not the record of the line following S's close. -/
theorem C3_subreader_and_reread (L : List (List Char)) (i c ln : Nat)
    (sb : List Char) (l : CLine) (r : CLine) (rs2 : List CLine)
    (hnl : noNL L) (hi : i ≤ L.length) (hl : l.isSectionOpen = true)
    (hskip : skipScan (L.drop i) 0 = some c)
    (hrecs : recordsScan ((L.drop i).take (c-1)) = some (r :: rs2)) :
    ∃ sb2,
      config_isolate_section (boundaryConf L i ln sb) l =
        (true, { boundaryConf L i ln sb with strbuf := sb2 },
          some (isoConf L i c)) ∧
      (readAll (isoConf L i c)).1 = r :: rs2 ∧
      ((readAll (isoConf L i c)).2).error_message = none ∧
      (config_read_line
        { boundaryConf L i ln sb with strbuf := sb2 }).1 = some r := by
  obtain ⟨sb2, hiso, hic, hc⟩ := isolate_success_aux L i c ln sb l hnl hi hl
    hskip
  have hat : AtLine (isoConf L i c) L (i+c-1) i := isoConf_at L i c hnl hc hic
  have heff : effLines L (i+c-1) i = (L.drop i).take (c-1) := by
    rw [effLines_take]
    congr 1
    omega
  have hscan : recordsScanF (((L.drop i).take (c-1)).length + 1)
      (effLines L (i+c-1) i) = some (r :: rs2) := by
    rw [heff]
    exact hrecs
  have hread := readAllF_records (((L.drop i).take (c-1)).length + 1)
    ((isoConf L i c).content.length + 1) hat (by omega) rfl hscan hat.fuel_ok
  -- the body's first grammar step gives the record the original re-reads
  have hstep0 : ∃ c1, stepScan ((L.drop i).take (c-1)) = some (some (r, c1))
      := by
    unfold recordsScan at hrecs
    unfold recordsScanF at hrecs
    cases hss : stepScan ((L.drop i).take (c-1)) with
    | none => rw [hss] at hrecs; simp at hrecs
    | some o =>
      cases o with
      | none =>
        rw [hss] at hrecs
        exact absurd ((Option.some.inj hrecs).symm) (by simp)
      | some p =>
        obtain ⟨r0, c1⟩ := p
        rw [hss] at hrecs
        simp only [Option.map_eq_some'] at hrecs
        obtain ⟨rs0, _, hcons⟩ := hrecs
        have : r0 = r := by
          have := congrArg (fun t => t.head?) hcons
          simpa using this
        subst this
        exact ⟨c1, rfl⟩
  obtain ⟨c1, hstep1⟩ := hstep0
  have hstepL : stepScan (L.drop i) = some (some (r, c1)) := by
    have := stepScanExtend ((L.drop i).drop (c-1)) hstep1
    rw [List.take_append_drop] at this
    exact this
  have hat2 : AtLine ({ boundaryConf L i ln sb with strbuf := sb2 })
      L L.length i :=
    (boundaryConf_at L i ln sb hnl hi).of_fields _ i rfl rfl rfl hi
  obtain ⟨sb3, hrl, _⟩ := config_read_line_step hat2 hi rfl
    (by rw [effLines_unbounded]; exact hstepL)
  exact ⟨sb2, hiso, hread.1, hread.2, by rw [hrl]⟩

/-- Witness for amended C3 at the concrete four-line input. -/
theorem C3_witness :
    noNL LC2 ∧ skipScan (LC2.drop 1) 0 = some 2 ∧
    recordsScan ((LC2.drop 1).take 1) =
      some [CLine.assign (("a").toList) (("1").toList)] ∧
    (∃ sb2,
      config_isolate_section (boundaryConf LC2 1 1 [])
          (CLine.sectionOpen (("s").toList) (("p").toList)) =
        (true, { boundaryConf LC2 1 1 [] with strbuf := sb2 },
          some (isoConf LC2 1 2)) ∧
      (readAll (isoConf LC2 1 2)).1 =
        [CLine.assign (("a").toList) (("1").toList)] ∧
      ((readAll (isoConf LC2 1 2)).2).error_message = none ∧
      (config_read_line { boundaryConf LC2 1 1 [] with strbuf := sb2 }).1 =
        some (CLine.assign (("a").toList) (("1").toList))) :=
  ⟨by decide, by decide, by decide,
    C3_subreader_and_reread LC2 1 2 1 []
      (CLine.sectionOpen (("s").toList) (("p").toList))
      (CLine.assign (("a").toList) (("1").toList)) []
      (by decide) (by decide) (by decide) (by decide) (by decide)⟩
